import Mathlib

/-!
Shallow embedding of the `react-native-vbump` CLI's core modules
(`src/utils/version.js`, `src/utils/android.js`, `src/utils/ios.js`,
`src/utils/packageJson.js`, `src/utils/detection.js`) together with proofs
about the behaviour its specification describes.

JavaScript strings are modelled as `List Char`.  JavaScript numbers that the
code manipulates are integers (build numbers) or the sentinel `NaN`; they are
modelled as `Option Int` with `none` playing the role of `NaN`.  Fallible
code (functions that `throw`) is modelled with `Except`.  The filesystem is
modelled as association lists from paths to file contents.
-/

namespace Vbump

/-- JavaScript strings, modelled as lists of characters. -/
abbrev Str := List Char

/-- Decimal digit test, the semantics of the regex class `\d`. -/
def isDigitC (c : Char) : Bool := '0' ≤ c && c ≤ '9'

/-- Numeric value of a decimal digit character. -/
def digitVal (c : Char) : Nat := c.toNat - 48

/-- The decimal digit character for `d` (defined for `d < 10`;
larger inputs are clamped, a case no caller reaches). -/
def digitChar (d : Nat) : Char :=
  match d with
  | 0 => '0' | 1 => '1' | 2 => '2' | 3 => '3' | 4 => '4'
  | 5 => '5' | 6 => '6' | 7 => '7' | 8 => '8' | _ => '9'

/-- Value of a digit string read left to right, i.e. what JavaScript's
`parseInt` computes on a string of decimal digits. -/
def digitsToNat (l : Str) : Nat := l.foldl (fun a c => 10 * a + digitVal c) 0

/-- `parseInt` restricted to a full group captured by `(\d+)`:
succeeds exactly on a non-empty all-digit string. -/
def parseDigits (l : Str) : Option Nat :=
  if l ≠ [] ∧ l.all isDigitC then some (digitsToNat l) else none

/-- Decimal rendering of a positive natural number (most significant digit
first), structurally recursive on a fuel argument so that it reduces by
computation; `n` itself is always enough fuel. -/
def natCharsCore : Nat → Nat → Str
  | 0, _ => []
  | fuel + 1, n =>
    if n = 0 then [] else natCharsCore fuel (n / 10) ++ [digitChar (n % 10)]

/-- Decimal rendering of a positive natural number; `natCharsAux 0 = []`. -/
def natCharsAux (n : Nat) : Str := natCharsCore n n

/-- Decimal rendering of a natural number, the way JavaScript stringifies a
non-negative integer (template-literal interpolation). -/
def natChars (n : Nat) : Str := if n = 0 then ['0'] else natCharsAux n

/-- Decimal rendering of an integer, the way JavaScript stringifies it. -/
def intChars (n : Int) : Str :=
  if n < 0 then '-' :: natChars (-n).toNat else natChars n.toNat

/-- Rendering of an `Option Int` build number, where `none` models the
JavaScript `NaN` that `parseInt` can produce. -/
def numRender : Option Int → Str
  | some n => intChars n
  | none => "NaN".toList

/-- Split a string at every `'.'` character, the way the anchored regex
`^(\d+)\.(\d+)\.(\d+)$` decomposes its subject into groups. -/
def splitDots : Str → List Str
  | [] => [[]]
  | c :: rest =>
    match splitDots rest with
    | [] => [[]]
    | g :: gs => if c = '.' then [] :: g :: gs else (c :: g) :: gs

/-- The `{major, minor, patch}` record built by `parseSemanticVersion`
(`src/utils/version.js`). -/
structure SemVer where
  major : Nat
  minor : Nat
  patch : Nat
deriving Repr, DecidableEq

/-- The message of the error thrown on an unparseable version string. -/
def invalidFormatMsg (s : Str) : Str := "Invalid version format: ".toList ++ s

/-- The message of the error thrown on an unrecognized increment type. -/
def invalidTypeMsg (s : Str) : Str := "Invalid increment type: ".toList ++ s

/-- `parseSemanticVersion(versionString)` from `src/utils/version.js`:
matches `^(\d+)\.(\d+)\.(\d+)$` (exactly three dot-separated non-empty digit
groups) and returns the three `parseInt`ed components, otherwise throws
`Invalid version format: <input>`. -/
def parseSemanticVersion (versionString : Str) : Except Str SemVer :=
  match splitDots versionString with
  | [a, b, c] =>
    match parseDigits a, parseDigits b, parseDigits c with
    | some M, some m, some p => .ok ⟨M, m, p⟩
    | _, _, _ => .error (invalidFormatMsg versionString)
  | _ => .error (invalidFormatMsg versionString)

/-- The template literal `` `${major}.${minor}.${patch}` ``. -/
def renderSemVer (v : SemVer) : Str :=
  natChars v.major ++ '.' :: (natChars v.minor ++ '.' :: natChars v.patch)

/-- `incrementSemanticVersion(version, type)` from `src/utils/version.js`:
parse, then bump the requested component (resetting the lower ones), then
re-render; an unrecognized type throws `Invalid increment type: <type>`. -/
def incrementSemanticVersion (version : Str) (type : Str) : Except Str Str :=
  match parseSemanticVersion version with
  | .error e => .error e
  | .ok parsed =>
    if type = "major".toList then
      .ok (renderSemVer ⟨parsed.major + 1, 0, 0⟩)
    else if type = "minor".toList then
      .ok (renderSemVer ⟨parsed.major, parsed.minor + 1, 0⟩)
    else if type = "patch".toList then
      .ok (renderSemVer ⟨parsed.major, parsed.minor, parsed.patch + 1⟩)
    else
      .error (invalidTypeMsg type)

/-- The JavaScript values flowing through the version-update entry points:
strings, numbers (integral), booleans and `null`.  `undefined` is conflated
with `null`, which the call sites treat identically. -/
inductive JSVal where
  | str (s : Str)
  | num (n : Int)
  | bool (b : Bool)
  | null
deriving Repr, DecidableEq

/-- JavaScript truthiness on the values of `JSVal`. -/
def JSVal.truthy : JSVal → Bool
  | .str s => !s.isEmpty
  | .num n => n != 0
  | .bool b => b
  | .null => false

/-- Whitespace skipped by JavaScript's `parseInt`. -/
def isSpaceC (c : Char) : Bool := c = ' ' || c = '\t' || c = '\n' || c = '\r'

/-- Leading digit run of a string, `parseInt`-style: `none` models `NaN`. -/
def parseIntDigits (l : Str) : Option Nat :=
  let ds := l.takeWhile isDigitC
  if ds = [] then none else some (digitsToNat ds)

/-- JavaScript `parseInt` on a `JSVal` (`none` models `NaN`): numbers parse
to themselves, strings are trimmed and parsed as an optionally signed
leading decimal digit run, booleans and `null` give `NaN`. -/
def jsParseInt : JSVal → Option Int
  | .num n => some n
  | .str s =>
    match s.dropWhile isSpaceC with
    | '-' :: rest => (parseIntDigits rest).map (fun n => -(n : Int))
    | '+' :: rest => (parseIntDigits rest).map (fun n => (n : Int))
    | t => (parseIntDigits t).map (fun n => (n : Int))
  | .bool _ => none
  | .null => none

/-- String interpolation of a `JSVal` into a template literal. -/
def jsValToStr : JSVal → Str
  | .str s => s
  | .num n => intChars n
  | .bool b => if b then "true".toList else "false".toList
  | .null => "null".toList

/-- `calculateNewBuildNumber(userValue, currentValue)` from
`src/utils/version.js`: `if (userValue && userValue !== true) return
parseInt(userValue); return parseInt(currentValue) + 1;`. -/
def calculateNewBuildNumber (userValue currentValue : JSVal) : Option Int :=
  if userValue.truthy ∧ userValue ≠ JSVal.bool true then jsParseInt userValue
  else (jsParseInt currentValue).map (· + 1)

/-- `calculateNewSemanticVersion(userValue, currentValue, incrementType)`
from `src/utils/version.js`: a truthy value other than `true` is returned
verbatim, otherwise the current value is auto-incremented. -/
def calculateNewSemanticVersion (userValue : JSVal) (currentValue : Str)
    (incrementType : Str) : Except Str Str :=
  if userValue.truthy ∧ userValue ≠ JSVal.bool true then .ok (jsValToStr userValue)
  else incrementSemanticVersion currentValue incrementType

/-! ## Android `build.gradle` content (`src/utils/android.js`)

A gradle file is modelled as the list of its pattern-relevant fragments, in
file order.  A `vc` node stands for a fragment matching
`versionCode\s+(\d+)` and carries the captured digit string; a `vn` node
stands for a fragment matching `versionName\s+"([^"]+)"` and carries the
captured quote-free, non-empty text; a `text` node stands for surrounding
text that matches neither pattern.  Whitespace inside a match is not
recorded: the code only ever rewrites a whole match, normalising its
whitespace to a single space. -/

inductive GLine where
  | vc (s : Str)
  | vn (s : Str)
  | text (s : Str)
deriving Repr, DecidableEq

abbrev GradleContent := List GLine

/-- `content.match(/versionCode\s+(\d+)/)?.[1]`: the first captured
versionCode digit string, if any. -/
def firstVC : GradleContent → Option Str
  | [] => none
  | .vc s :: _ => some s
  | _ :: rest => firstVC rest

/-- `content.match(/versionName\s+"([^"]+)"/)?.[1]`. -/
def firstVN : GradleContent → Option Str
  | [] => none
  | .vn s :: _ => some s
  | _ :: rest => firstVN rest

/-- The captured values of every occurrence of the `versionCode` pattern,
in file order. -/
def vcOccurrences (content : GradleContent) : List Str :=
  content.filterMap fun l => match l with | .vc s => some s | _ => none

/-- The captured values of every occurrence of the `versionName` pattern,
in file order. -/
def vnOccurrences (content : GradleContent) : List Str :=
  content.filterMap fun l => match l with | .vn s => some s | _ => none

/-- The fragment written by the replacement `` `versionCode ${n}` ``.  It
matches the versionCode pattern again exactly when `n` is a non-negative
integer; `NaN` or a negative value yields plain text. -/
def vcLine (n : Option Int) : GLine :=
  match n with
  | some m =>
    if 0 ≤ m then .vc (natChars m.toNat)
    else .text ("versionCode ".toList ++ intChars m)
  | none => .text "versionCode NaN".toList

/-- The fragment written by the replacement `` `versionName "${s}"` ``.  It
matches the versionName pattern again exactly when `s` is non-empty and
quote-free (the quoted case would leave a shorter match inside; no caller
proved below reaches it). -/
def vnLine (s : Str) : GLine :=
  if s ≠ [] ∧ '"' ∉ s then .vn s
  else .text ("versionName ".toList ++ '"' :: s ++ ['"'])

/-- Non-global `content.replace(/versionCode\s+\d+/, ...)`: only the first
match is rewritten; no match leaves the content unchanged. -/
def replaceFirstVC (content : GradleContent) (n : Option Int) : GradleContent :=
  match content with
  | [] => []
  | .vc _ :: rest => vcLine n :: rest
  | l :: rest => l :: replaceFirstVC rest n

/-- Non-global `content.replace(/versionName\s+"[^"]+"/, ...)`. -/
def replaceFirstVN (content : GradleContent) (s : Str) : GradleContent :=
  match content with
  | [] => []
  | .vn _ :: rest => vnLine s :: rest
  | l :: rest => l :: replaceFirstVN rest s

/-- `updateAndroidFileContent(content, newVersionCode, newVersionName,
updateVersionName)` from `src/utils/android.js`: always rewrite the first
versionCode match, and rewrite the first versionName match only when
requested. -/
def updateAndroidFileContent (content : GradleContent) (newVersionCode : Option Int)
    (newVersionName : Str) (updateVersionName : Bool) : GradleContent :=
  let c := replaceFirstVC content newVersionCode
  if updateVersionName then replaceFirstVN c newVersionName else c

/-! ## iOS `project.pbxproj` content (`src/utils/ios.js`) -/

/-- A pbxproj file as the list of its pattern-relevant fragments: `cpv`
matches `CURRENT_PROJECT_VERSION = (\d+);` (captured digit string), `mv`
matches `MARKETING_VERSION = ([^;]+);` (captured non-empty, semicolon-free
text), `text` matches neither pattern. -/
inductive PLine where
  | cpv (s : Str)
  | mv (s : Str)
  | text (s : Str)
deriving Repr, DecidableEq

abbrev PbxContent := List PLine

/-- `content.match(/CURRENT_PROJECT_VERSION = (\d+);/g)`: the captured
strings of every match, in order (`[]` models the `null` no-match result). -/
def allCPV (content : PbxContent) : List Str :=
  content.filterMap fun l => match l with | .cpv s => some s | _ => none

/-- `content.match(/MARKETING_VERSION = ([^;]+);/g)`, captured values. -/
def allMV (content : PbxContent) : List Str :=
  content.filterMap fun l => match l with | .mv s => some s | _ => none

/-- The fragment written by `` `CURRENT_PROJECT_VERSION = ${n};` ``. -/
def cpvLine (n : Option Int) : PLine :=
  match n with
  | some m =>
    if 0 ≤ m then .cpv (natChars m.toNat)
    else .text ("CURRENT_PROJECT_VERSION = ".toList ++ intChars m ++ [';'])
  | none => .text "CURRENT_PROJECT_VERSION = NaN;".toList

/-- The fragment written by `` `MARKETING_VERSION = ${s};` ``. -/
def mvLine (s : Str) : PLine :=
  if s ≠ [] ∧ ';' ∉ s then .mv s
  else .text ("MARKETING_VERSION = ".toList ++ s ++ [';'])

/-- `updateIOSFileContent(content, newCurrentProjectVersion,
newMarketingVersion, updateCurrentProjectVersion, updateMarketingVersion)`
from `src/utils/ios.js`: global replaces, rewriting every occurrence of each
requested field. -/
def updateIOSFileContent (content : PbxContent) (newCurrentProjectVersion : Option Int)
    (newMarketingVersion : Str) (updateCurrentProjectVersion updateMarketingVersion : Bool) :
    PbxContent :=
  let c1 :=
    if updateCurrentProjectVersion then
      content.map fun l => match l with
        | .cpv _ => cpvLine newCurrentProjectVersion
        | l => l
    else content
  if updateMarketingVersion then
    c1.map fun l => match l with
      | .mv _ => mvLine newMarketingVersion
      | l => l
  else c1

/-! ## Run context, change log, filesystem -/

/-- One entry of the change log pushed by `recordAndroidChanges`,
`recordIOSChanges` and `recordPackageJsonChange`. -/
structure Change where
  platform : String
  file : String
  item : String
  oldValue : Str
  newValue : Str
deriving Repr, DecidableEq

/-- The mutable `options` bag threaded through the mutators.  `increment`
models `options.increment` (`none` = `undefined`); `changes` starts as the
orchestrator's `[]` (an absent array and `[]` behave identically through
`options.changes = options.changes || []`); `packageJsonUpdated` starts
falsy. -/
structure Options where
  dryRun : Bool
  projectRoot : String
  increment : Option Str
  packageJsonPath : Option String
  packageJsonUpdated : Bool
  changes : List Change
deriving Repr, DecidableEq

/-- `options.increment || 'patch'`. -/
def effIncrement (o : Options) : Str :=
  match o.increment with
  | some i => if i = [] then "patch".toList else i
  | none => "patch".toList

/-- Model of `path.relative(root, p)` for the case this code exercises:
strip the root prefix, otherwise return the path unchanged.  No theorem
below depends on its internals. -/
def relPath (root p : String) : String :=
  if List.isPrefixOf (root.toList ++ ['/']) p.toList then
    String.mk (p.toList.drop (root.toList.length + 1))
  else p

/-- A parsed `package.json` document together with the serialization style
of its on-disk text: the ordered key/value fields (values modelled as
strings, the only shape the code reads or writes), the indentation width and
whether the text ends in a newline. -/
structure PkgDoc where
  fields : List (String × Str)
  indent : Nat
  trailingNewline : Bool
deriving Repr, DecidableEq

/-- Overwrite the value at a key, keeping its position, or append the pair —
JavaScript property assignment, and also the effect of `writeFileSync` on an
association-list filesystem. -/
def setKey {α : Type} (k : String) (v : α) : List (String × α) → List (String × α)
  | [] => [(k, v)]
  | (k', v') :: rest => if k' = k then (k, v) :: rest else (k', v') :: setKey k v rest

/-- The filesystem visible to the mutators: paths to Android gradle files,
iOS pbxproj files and package manifests.  A path absent from a list models a
missing file. -/
structure FS where
  androidFiles : List (String × GradleContent)
  iosFiles : List (String × PbxContent)
  packageFiles : List (String × PkgDoc)
deriving Repr, DecidableEq

/-- The per-file result object returned by `processAndroidFile`. -/
structure AndroidResult where
  filePath : String
  versionCode : Option Int
  versionName : Str
deriving Repr, DecidableEq

/-- The per-file result object returned by `processIOSFile`. -/
structure IOSResult where
  filePath : String
  currentProjectVersion : Option Int
  marketingVersion : Str
deriving Repr, DecidableEq

/-! ## Package manifest mutator (`src/utils/packageJson.js`) -/

/-- `updatePackageJsonVersion(packageJsonPath, newVersion, options)`:
return `null` when the file is missing or its parsed content has no truthy
`version` field (an empty string is falsy); otherwise overwrite the version,
re-serialize with `JSON.stringify(packageData, null, 2) + '\n'` (2-space
indentation, trailing newline), write unless dry-run, push one change
record, and return the new version.  A file that exists but does not parse
would throw in JavaScript; `PkgDoc` only models parseable documents. -/
def updatePackageJsonVersion (pkgs : List (String × PkgDoc)) (packageJsonPath : String)
    (newVersion : Str) (o : Options) : List (String × PkgDoc) × Option Str × Options :=
  match List.lookup packageJsonPath pkgs with
  | none => (pkgs, none, o)
  | some doc =>
    match List.lookup "version" doc.fields with
    | none => (pkgs, none, o)
    | some currentVersion =>
      if currentVersion = [] then (pkgs, none, o)
      else
        let newDoc : PkgDoc := ⟨setKey "version" newVersion doc.fields, 2, true⟩
        let pkgs' := if o.dryRun then pkgs else setKey packageJsonPath newDoc pkgs
        let o' := { o with changes := o.changes ++
          [⟨"Package.json", relPath o.projectRoot packageJsonPath, "version",
            currentVersion, newVersion⟩] }
        (pkgs', some newVersion, o')

/-! ## Android mutator (`src/utils/android.js`) -/

/-- `recordAndroidChanges`: always push a versionCode record, and push a
versionName record only when the version name was updated. -/
def recordAndroidChanges (filePath : String) (oldVersionCode : Str)
    (newVersionCode : Option Int) (oldVersionName newVersionName : Str)
    (versionNameUpdated : Bool) (o : Options) : Options :=
  let o₁ := { o with changes := o.changes ++
    [⟨"Android", relPath o.projectRoot filePath, "versionCode",
      oldVersionCode, numRender newVersionCode⟩] }
  if versionNameUpdated then
    { o₁ with changes := o₁.changes ++
      [⟨"Android", relPath o₁.projectRoot filePath, "versionName",
        oldVersionName, newVersionName⟩] }
  else o₁

/-- The package-manifest sync step shared verbatim by `processAndroidFile`
(lines 87–91) and `processIOSFile` (lines 110–114): `if
(!options.packageJsonUpdated && options.packageJsonPath && semverUpdated)
{ await updatePackageJsonVersion(...); options.packageJsonUpdated = true; }`. -/
def syncPackageJson (fs : FS) (o : Options) (newVersion : Str)
    (semverUpdated : Bool) : FS × Options :=
  match o.packageJsonPath with
  | some p =>
    if ¬o.packageJsonUpdated ∧ semverUpdated then
      let r := updatePackageJsonVersion fs.packageFiles p newVersion o
      ({ fs with packageFiles := r.1 }, { r.2.2 with packageJsonUpdated := true })
    else (fs, o)
  | none => (fs, o)

/-- `processAndroidFile(filePath, versionCode, versionName, options)`:
missing file or missing field patterns warn and yield `null`; otherwise
compute the new values (`versionName === null` skips the semantic-version
computation), rewrite the content, write unless dry-run, record changes,
sync the package manifest once per run, and return the result object.  An
exception from `calculateNewSemanticVersion` propagates (`Except.error`). -/
def processAndroidFile (fs : FS) (filePath : String) (versionCode versionName : JSVal)
    (o : Options) : Except Str (FS × Option AndroidResult × Options) :=
  match List.lookup filePath fs.androidFiles with
  | none => .ok (fs, none, o)
  | some content =>
    match firstVC content, firstVN content with
    | some currentVersionCode, some currentVersionName =>
      let newVersionCode := calculateNewBuildNumber versionCode (.str currentVersionCode)
      match (if versionName ≠ JSVal.null then
               calculateNewSemanticVersion versionName currentVersionName (effIncrement o)
             else .ok currentVersionName) with
      | .error e => .error e
      | .ok newVersionName =>
        let content' := updateAndroidFileContent content newVersionCode newVersionName
          (versionName ≠ JSVal.null)
        let fs₁ := if o.dryRun then fs
          else { fs with androidFiles := setKey filePath content' fs.androidFiles }
        let o₁ := recordAndroidChanges filePath currentVersionCode newVersionCode
          currentVersionName newVersionName (versionName ≠ JSVal.null) o
        let s := syncPackageJson fs₁ o₁ newVersionName (versionName ≠ JSVal.null)
        .ok (s.1, some ⟨filePath, newVersionCode, newVersionName⟩, s.2)
    | _, _ => .ok (fs, none, o)

/-- `updateAndroidVersions(files, versionCode, versionName, options)`:
process each file in order, collecting the non-null results. -/
def updateAndroidVersions (fs : FS) (files : List String)
    (versionCode versionName : JSVal) (o : Options) :
    Except Str (FS × List AndroidResult × Options) :=
  match files with
  | [] => .ok (fs, [], o)
  | f :: rest =>
    match processAndroidFile fs f versionCode versionName o with
    | .error e => .error e
    | .ok (fs₁, r?, o₁) =>
      match updateAndroidVersions fs₁ rest versionCode versionName o₁ with
      | .error e => .error e
      | .ok (fs₂, rs, o₂) =>
        .ok (fs₂, (match r? with | some r => r :: rs | none => rs), o₂)

/-! ## iOS mutator (`src/utils/ios.js`) -/

/-- `recordIOSChanges`: push a record per field, each only when that field
was actually updated. -/
def recordIOSChanges (filePath : String) (oldCurrentProjectVersion : Str)
    (newCurrentProjectVersion : Option Int) (oldMarketingVersion newMarketingVersion : Str)
    (currentProjectVersionUpdated marketingVersionUpdated : Bool) (o : Options) : Options :=
  let o₁ :=
    if currentProjectVersionUpdated then
      { o with changes := o.changes ++
        [⟨"iOS", relPath o.projectRoot filePath, "CURRENT_PROJECT_VERSION",
          oldCurrentProjectVersion, numRender newCurrentProjectVersion⟩] }
    else o
  if marketingVersionUpdated then
    { o₁ with changes := o₁.changes ++
      [⟨"iOS", relPath o₁.projectRoot filePath, "MARKETING_VERSION",
        oldMarketingVersion, newMarketingVersion⟩] }
  else o₁

/-- `processIOSFile(filePath, currentProjectVersion, marketingVersion,
options)`: missing file or missing patterns warn and yield `null`; the first
occurrence of each pattern supplies the current values; `null` per field
skips that field's update (the build number is still re-parsed for the
result object); all occurrences of each updated field are rewritten; write
unless dry-run; record changes; sync the package manifest once per run. -/
def processIOSFile (fs : FS) (filePath : String)
    (currentProjectVersion marketingVersion : JSVal) (o : Options) :
    Except Str (FS × Option IOSResult × Options) :=
  match List.lookup filePath fs.iosFiles with
  | none => .ok (fs, none, o)
  | some content =>
    match allCPV content, allMV content with
    | cpv₀ :: _, mv₀ :: _ =>
      let newCurrentProjectVersion :=
        if currentProjectVersion ≠ JSVal.null then
          calculateNewBuildNumber currentProjectVersion (.str cpv₀)
        else jsParseInt (.str cpv₀)
      match (if marketingVersion ≠ JSVal.null then
               calculateNewSemanticVersion marketingVersion mv₀ (effIncrement o)
             else .ok mv₀) with
      | .error e => .error e
      | .ok newMarketingVersion =>
        let content' := updateIOSFileContent content newCurrentProjectVersion
          newMarketingVersion (currentProjectVersion ≠ JSVal.null)
          (marketingVersion ≠ JSVal.null)
        let fs₁ := if o.dryRun then fs
          else { fs with iosFiles := setKey filePath content' fs.iosFiles }
        let o₁ := recordIOSChanges filePath cpv₀ newCurrentProjectVersion mv₀
          newMarketingVersion (currentProjectVersion ≠ JSVal.null)
          (marketingVersion ≠ JSVal.null) o
        let s := syncPackageJson fs₁ o₁ newMarketingVersion (marketingVersion ≠ JSVal.null)
        .ok (s.1, some ⟨filePath, newCurrentProjectVersion, newMarketingVersion⟩, s.2)
    | _, _ => .ok (fs, none, o)

/-- `updateIOSVersions(files, currentProjectVersion, marketingVersion,
options)`: process each file in order, collecting the non-null results. -/
def updateIOSVersions (fs : FS) (files : List String)
    (currentProjectVersion marketingVersion : JSVal) (o : Options) :
    Except Str (FS × List IOSResult × Options) :=
  match files with
  | [] => .ok (fs, [], o)
  | f :: rest =>
    match processIOSFile fs f currentProjectVersion marketingVersion o with
    | .error e => .error e
    | .ok (fs₁, r?, o₁) =>
      match updateIOSVersions fs₁ rest currentProjectVersion marketingVersion o₁ with
      | .error e => .error e
      | .ok (fs₂, rs, o₂) =>
        .ok (fs₂, (match r? with | some r => r :: rs | none => rs), o₂)

/-- `executePlatformUpdates` for the `['android', 'ios']` platform
selection (`src/index.js`): Android files first, then iOS files, threading
the same filesystem and options. -/
def runAndroidThenIOS (fs : FS) (androidFiles iosFiles : List String)
    (versionCode versionName currentProjectVersion marketingVersion : JSVal)
    (o : Options) : Except Str (FS × List AndroidResult × List IOSResult × Options) :=
  match updateAndroidVersions fs androidFiles versionCode versionName o with
  | .error e => .error e
  | .ok (fs₁, ars, o₁) =>
    match updateIOSVersions fs₁ iosFiles currentProjectVersion marketingVersion o₁ with
    | .error e => .error e
    | .ok (fs₂, irs, o₂) => .ok (fs₂, ars, irs, o₂)

/-- The change records logged against the shared package manifest. -/
def pkgRecords (cs : List Change) : List Change :=
  cs.filter fun c => c.platform == "Package.json"

/-- The observable signature of an options bag apart from the dry-run flag
and the disk: project root, increment, manifest path, one-shot guard and
change log.  Two runs that differ only in `dryRun` keep equal signatures. -/
def optsSig (o : Options) : String × Option Str × Option String × Bool × List Change :=
  (o.projectRoot, o.increment, o.packageJsonPath, o.packageJsonUpdated, o.changes)

/-- The two local failure modes `processAndroidFile` warns about and skips:
the file does not exist, or one of the required field patterns is entirely
absent from its content. -/
def badAndroidFile (fs : FS) (f : String) : Prop :=
  List.lookup f fs.androidFiles = none ∨
    ∃ content, List.lookup f fs.androidFiles = some content ∧
      (firstVC content = none ∨ firstVN content = none)

/-- Run-long invariant of the one-shot package-manifest guard: while the
guard is unset no package-manifest record has been logged, and at no point
is more than one logged. -/
def PkgInv (o : Options) : Prop :=
  (o.packageJsonUpdated = false → pkgRecords o.changes = []) ∧
    (pkgRecords o.changes).length ≤ 1

/-- The two local failure modes `processIOSFile` warns about and skips. -/
def badIOSFile (fs : FS) (f : String) : Prop :=
  List.lookup f fs.iosFiles = none ∨
    ∃ content, List.lookup f fs.iosFiles = some content ∧
      (allCPV content = [] ∨ allMV content = [])

/-! ## Project detection and configuration (`src/utils/detection.js`) -/

/-- JavaScript object spread `{...a, ...b}` on association lists: the keys
of `a` in order with `b`'s value where `b` overrides, followed by the keys
only `b` has, in order. -/
def objSpread {α : Type} (a b : List (String × α)) : List (String × α) :=
  (a.map fun kv => (kv.1, (List.lookup kv.1 b).getD kv.2)) ++
    b.filter fun kv => (List.lookup kv.1 a).isNone

/-- A `package.json` found during the upward walk: either present but
unparseable (`JSON.parse` throws, swallowed by the walk) or parsed, with its
`dependencies` and `devDependencies` maps (version values modelled as
strings, their shape in any well-formed manifest). -/
inductive Manifest where
  | bad
  | parsed (dependencies devDependencies : List (String × Str))
deriving Repr, DecidableEq

/-- One directory of the upward walk: its path, its `package.json` (if
any), and whether `android` / `ios` subdirectories exist. -/
structure DirInfo where
  path : String
  manifest : Option Manifest
  hasAndroidDir : Bool
  hasIosDir : Bool
deriving Repr, DecidableEq

/-- The allow-list of recognized React Native packages. -/
def reactNativePackages : List String :=
  ["react-native", "@react-native-community/cli", "react-native-cli"]

/-- `hasReactNativeDependencies(packageJson)`: merge `dependencies` and
`devDependencies` by spread (devDependencies winning) and test whether some
allow-listed package maps to a truthy value there. -/
def hasReactNativeDependencies (dependencies devDependencies : List (String × Str)) : Bool :=
  let allDependencies := objSpread dependencies devDependencies
  reactNativePackages.any fun pkg =>
    match List.lookup pkg allDependencies with
    | some v => !v.isEmpty
    | none => false

/-- `detectReactNativeProject(startDir)`: the `while (currentDir !== root)`
loop, with the chain of directories from `startDir` up to (excluding) the
filesystem root given as a list.  A parse error is caught and the walk
continues; a directory qualifies when its manifest parses, declares a
recognized dependency, and at least one platform directory exists. -/
def detectReactNativeProject : List DirInfo → Option String
  | [] => none
  | d :: rest =>
    match d.manifest with
    | some (.parsed dependencies devDependencies) =>
      if hasReactNativeDependencies dependencies devDependencies ∧
          (d.hasAndroidDir ∨ d.hasIosDir) then
        some d.path
      else detectReactNativeProject rest
    | _ => detectReactNativeProject rest

/-- The qualifying test of the loop body, as a single predicate. -/
def dirQualifies (d : DirInfo) : Bool :=
  match d.manifest with
  | some (.parsed dependencies devDependencies) =>
    hasReactNativeDependencies dependencies devDependencies &&
      (d.hasAndroidDir || d.hasIosDir)
  | _ => false

/-- Modelled from the spec (claim wording, for refutation): a directory
"declares a recognized react-native dependency (exact name match against a
short allow-list, in either dependencies or devDependencies)" and has a
platform directory, its manifest being parseable. -/
def specDirQualifies (d : DirInfo) : Bool :=
  match d.manifest with
  | some (.parsed dependencies devDependencies) =>
    (reactNativePackages.any fun pkg =>
        (List.lookup pkg dependencies).isSome ||
          (List.lookup pkg devDependencies).isSome) &&
      (d.hasAndroidDir || d.hasIosDir)
  | _ => false

/-- JSON-like configuration values. -/
inductive JVal where
  | obj (fields : List (String × JVal))
  | arr (elems : List JVal)
  | str (s : String)
  | num (n : Int)
  | bool (b : Bool)
  | null
deriving Repr

/-- Enumerable own properties contributed by `{...v}`: an object spreads
its fields, a string its characters keyed by index, an array its elements
keyed by index, and primitives spread nothing. -/
def spreadFields : JVal → List (String × JVal)
  | .obj fields => fields
  | .str s => s.toList.enum.map fun ic => (toString ic.1, JVal.str (String.mk [ic.2]))
  | .arr elems => elems.enum.map fun iv => (toString iv.1, iv.2)
  | _ => []

/-- `DEFAULT_CONFIG` from `src/utils/detection.js`. -/
def DEFAULT_CONFIG : List (String × JVal) :=
  [("android", .obj [("files", .arr [.str "android/app/build.gradle"])]),
   ("ios", .obj [("files", .arr [.str "ios/*.xcodeproj/project.pbxproj"])]),
   ("packageJson", .str "package.json")]

/-- `mergeConfigs(defaultConfig, userConfig)`: for each default key, a
user value that is truthy, of object type and not an array is spread-merged
over the (spread of the) default value; any other defined user value
replaces the default wholesale; an absent user key keeps (a copy of) the
default.  User keys missing from the defaults are appended. -/
def mergeConfigs (defaultConfig userConfig : List (String × JVal)) :
    List (String × JVal) :=
  (defaultConfig.map fun kv =>
    match List.lookup kv.1 userConfig with
    | some (.obj fu) => (kv.1, JVal.obj (objSpread (spreadFields kv.2) fu))
    | some uv => (kv.1, uv)
    | none => kv) ++
    userConfig.filter fun kv => (List.lookup kv.1 defaultConfig).isNone

/-- A candidate config file on disk: present but failing to load or parse
(`bad`), or successfully loaded with a value. -/
inductive CfgFile where
  | bad
  | val (v : JVal)
deriving Repr

/-- `loadConfigFromPath(configPath)`: `null` when the file is missing,
fails to load/parse (warned and swallowed), or does not hold a plain
key-value object (not an object, `null`, or an array — warned); otherwise
the object's fields. -/
def loadConfigFromPath (cfgs : List (String × CfgFile)) (p : String) :
    Option (List (String × JVal)) :=
  match List.lookup p cfgs with
  | none => none
  | some .bad => none
  | some (.val v) =>
    match v with
    | .obj fields => some fields
    | _ => none

/-- The fixed ordered candidate list searched in the project root. -/
def configFileNames : List String :=
  ["vbump.config.js", "vbump.config.json", ".vbump.config.js", ".vbump.config.json"]

/-- Model of `path.join(projectRoot, name)`. -/
def joinPath (root name : String) : String := root ++ "/" ++ name

/-- The `for (const configFile of configFiles)` scan: first successfully
loaded candidate is merged over the defaults; none succeeding falls back to
`getDefaultConfig()` (a copy of `DEFAULT_CONFIG`). -/
def scanConfigs (cfgs : List (String × CfgFile)) : List String → List (String × JVal)
  | [] => DEFAULT_CONFIG
  | p :: rest =>
    match loadConfigFromPath cfgs p with
    | some c => mergeConfigs DEFAULT_CONFIG c
    | none => scanConfigs cfgs rest

/-- `loadProjectConfiguration(projectRoot, customConfigPath)`: try the
custom path first when provided, then the conventional candidates in the
project root; every failure falls through to the next candidate and finally
to the defaults.  The function is total — the JavaScript `try`/`catch`
that guarantees "never raises" has nothing left to catch. -/
def loadProjectConfiguration (cfgs : List (String × CfgFile)) (projectRoot : String)
    (customConfigPath : Option String) : List (String × JVal) :=
  let fallback := scanConfigs cfgs (configFileNames.map (joinPath projectRoot))
  match customConfigPath with
  | some cp =>
    match loadConfigFromPath cfgs cp with
    | some c => mergeConfigs DEFAULT_CONFIG c
    | none => fallback
  | none => fallback

/-! ## Decimal rendering / parsing round trip -/

theorem digitVal_digitChar {d : Nat} (h : d < 10) : digitVal (digitChar d) = d := by
  interval_cases d <;> rfl

theorem isDigitC_digitChar {d : Nat} (h : d < 10) : isDigitC (digitChar d) = true := by
  interval_cases d <;> rfl

theorem foldl_digits (l : Str) (init : Nat) :
    l.foldl (fun a c => 10 * a + digitVal c) init =
      init * 10 ^ l.length + digitsToNat l := by
  induction l generalizing init with
  | nil => simp [digitsToNat]
  | cons c t ih =>
    have h₀ : digitsToNat (c :: t) = digitVal c * 10 ^ t.length + digitsToNat t := by
      have := ih (digitVal c)
      simpa [digitsToNat] using this
    calc (c :: t).foldl (fun a c => 10 * a + digitVal c) init
        = t.foldl (fun a c => 10 * a + digitVal c) (10 * init + digitVal c) := rfl
      _ = (10 * init + digitVal c) * 10 ^ t.length + digitsToNat t := ih _
      _ = init * 10 ^ (c :: t).length + digitsToNat (c :: t) := by
          rw [h₀]; ring_nf; simp [List.length_cons, pow_succ]; ring

theorem digitsToNat_snoc (a : Str) (c : Char) :
    digitsToNat (a ++ [c]) = 10 * digitsToNat a + digitVal c := by
  unfold digitsToNat
  rw [List.foldl_append]
  rfl

theorem natCharsCore_congr (n : Nat) : ∀ fuel₁ fuel₂, n ≤ fuel₁ → n ≤ fuel₂ →
    natCharsCore fuel₁ n = natCharsCore fuel₂ n := by
  induction n using Nat.strong_induction_on with
  | _ n ih =>
    intro fuel₁ fuel₂ h₁ h₂
    match fuel₁, fuel₂ with
    | 0, fuel₂ =>
      interval_cases n
      cases fuel₂ <;> rfl
    | fuel₁ + 1, 0 =>
      interval_cases n
      rfl
    | fuel₁ + 1, fuel₂ + 1 =>
      by_cases h : n = 0
      · simp [natCharsCore, h]
      · have hdiv : n / 10 < n := Nat.div_lt_self (Nat.pos_of_ne_zero h) (by norm_num)
        have hle₁ : n / 10 ≤ fuel₁ := by omega
        have hle₂ : n / 10 ≤ fuel₂ := by omega
        simp only [natCharsCore, if_neg h]
        rw [ih (n / 10) hdiv fuel₁ fuel₂ hle₁ hle₂]

theorem natCharsAux_eq (n : Nat) (h : n ≠ 0) :
    natCharsAux n = natCharsAux (n / 10) ++ [digitChar (n % 10)] := by
  unfold natCharsAux
  match n, h with
  | m + 1, _ =>
    simp only [natCharsCore]
    rw [natCharsCore_congr ((m + 1) / 10) m ((m + 1) / 10)
      (by omega) (le_refl _)]
    simp

theorem digitsToNat_natCharsAux (n : Nat) : digitsToNat (natCharsAux n) = n := by
  induction n using Nat.strong_induction_on with
  | _ n ih =>
    by_cases h : n = 0
    · subst h
      rw [natCharsAux]
      rfl
    · rw [natCharsAux_eq n h, digitsToNat_snoc,
        ih (n / 10) (Nat.div_lt_self (Nat.pos_of_ne_zero h) (by norm_num)),
        digitVal_digitChar (Nat.mod_lt n (by norm_num))]
      exact Nat.div_add_mod n 10

theorem natCharsAux_digits (n : Nat) : ∀ c ∈ natCharsAux n, isDigitC c = true := by
  induction n using Nat.strong_induction_on with
  | _ n ih =>
    by_cases h : n = 0
    · subst h
      intro c hc
      simp [natCharsAux, natCharsCore] at hc
    · rw [natCharsAux_eq n h]
      intro c hc
      rcases List.mem_append.mp hc with h₁ | h₁
      · exact ih (n / 10) (Nat.div_lt_self (Nat.pos_of_ne_zero h) (by norm_num)) c h₁
      · rw [List.mem_singleton.mp h₁]
        exact isDigitC_digitChar (Nat.mod_lt n (by norm_num))

theorem natCharsAux_ne_nil (n : Nat) (h : n ≠ 0) : natCharsAux n ≠ [] := by
  rw [natCharsAux_eq n h]
  simp

theorem natChars_digits (n : Nat) : ∀ c ∈ natChars n, isDigitC c = true := by
  intro c hc
  unfold natChars at hc
  by_cases h : n = 0
  · rw [if_pos h] at hc
    rw [List.mem_singleton.mp hc]
    decide
  · rw [if_neg h] at hc
    exact natCharsAux_digits n c hc

theorem natChars_ne_nil (n : Nat) : natChars n ≠ [] := by
  unfold natChars
  by_cases h : n = 0
  · rw [if_pos h]
    simp
  · rw [if_neg h]
    exact natCharsAux_ne_nil n h

theorem digitsToNat_natChars (n : Nat) : digitsToNat (natChars n) = n := by
  unfold natChars
  by_cases h : n = 0
  · rw [if_pos h, h]
    rfl
  · rw [if_neg h]
    exact digitsToNat_natCharsAux n

theorem parseDigits_natChars (n : Nat) : parseDigits (natChars n) = some n := by
  unfold parseDigits
  rw [if_pos ⟨natChars_ne_nil n, List.all_eq_true.mpr (natChars_digits n)⟩,
    digitsToNat_natChars n]

theorem isDigitC_ne_dot {c : Char} (h : isDigitC c = true) : c ≠ '.' := by
  intro hc
  subst hc
  exact absurd h (by decide)

theorem natChars_no_dot (n : Nat) : ∀ c ∈ natChars n, c ≠ '.' :=
  fun c hc => isDigitC_ne_dot (natChars_digits n c hc)

/-! ## `splitDots` -/

theorem splitDots_ne_nil (l : Str) : splitDots l ≠ [] := by
  cases l with
  | nil => simp [splitDots]
  | cons c t =>
    unfold splitDots
    cases splitDots t with
    | nil => simp
    | cons g gs => by_cases h : c = '.' <;> simp [h]

theorem splitDots_no_dot (a : Str) (h : ∀ c ∈ a, c ≠ '.') : splitDots a = [a] := by
  induction a with
  | nil => rfl
  | cons c t ih =>
    have ht := ih fun c hc => h c (List.mem_cons_of_mem _ hc)
    simp only [splitDots, ht]
    simp [h c (List.mem_cons_self c t)]

theorem splitDots_append_dot (a l : Str) (h : ∀ c ∈ a, c ≠ '.') :
    splitDots (a ++ '.' :: l) = a :: splitDots l := by
  induction a with
  | nil =>
    show splitDots ('.' :: l) = [] :: splitDots l
    cases hs : splitDots l with
    | nil => exact absurd hs (splitDots_ne_nil l)
    | cons g gs => simp only [splitDots, hs, if_pos]
  | cons c t ih =>
    have ht := ih fun c hc => h c (List.mem_cons_of_mem _ hc)
    show splitDots (c :: (t ++ '.' :: l)) = (c :: t) :: splitDots l
    simp only [splitDots, ht]
    simp [h c (List.mem_cons_self c t)]

theorem splitDots_renderSemVer (v : SemVer) :
    splitDots (renderSemVer v) = [natChars v.major, natChars v.minor, natChars v.patch] := by
  unfold renderSemVer
  rw [splitDots_append_dot _ _ (natChars_no_dot v.major),
    splitDots_append_dot _ _ (natChars_no_dot v.minor),
    splitDots_no_dot _ (natChars_no_dot v.patch)]

theorem parseSemanticVersion_renderSemVer (v : SemVer) :
    parseSemanticVersion (renderSemVer v) = .ok v := by
  unfold parseSemanticVersion
  rw [splitDots_renderSemVer v]
  simp [parseDigits_natChars]

theorem parseSemanticVersion_error_msg {v e : Str}
    (h : parseSemanticVersion v = .error e) : e = invalidFormatMsg v := by
  unfold parseSemanticVersion at h
  split at h
  · split at h <;> simp_all
  · simp_all

/-- C5: for every valid version string `"M.m.p"`, parsing the result of
`incrementSemanticVersion` yields `{M, m, p+1}` for kind `patch`,
`{M, m+1, 0}` for `minor` and `{M+1, 0, 0}` for `major`; an unrecognized
kind fails with an error identifying that kind, and an unparseable version
string fails with a format error identifying that string. -/
theorem C5_incrementSemanticVersion_correct :
    (∀ (v : Str) (M m p : Nat), parseSemanticVersion v = .ok ⟨M, m, p⟩ →
      (incrementSemanticVersion v "patch".toList).bind parseSemanticVersion
          = .ok ⟨M, m, p + 1⟩ ∧
        (incrementSemanticVersion v "minor".toList).bind parseSemanticVersion
          = .ok ⟨M, m + 1, 0⟩ ∧
        (incrementSemanticVersion v "major".toList).bind parseSemanticVersion
          = .ok ⟨M + 1, 0, 0⟩) ∧
    (∀ (v k : Str) (sv : SemVer), parseSemanticVersion v = .ok sv →
      k ≠ "major".toList → k ≠ "minor".toList → k ≠ "patch".toList →
      incrementSemanticVersion v k = .error (invalidTypeMsg k)) ∧
    (∀ (v k e : Str), parseSemanticVersion v = .error e →
      incrementSemanticVersion v k = .error (invalidFormatMsg v)) := by
  refine ⟨fun v M m p h => ?_, fun v k sv h h₁ h₂ h₃ => ?_, fun v k e h => ?_⟩
  · unfold incrementSemanticVersion
    rw [h]
    refine ⟨?_, ?_, ?_⟩ <;>
      simp [Except.bind, parseSemanticVersion_renderSemVer]
  · unfold incrementSemanticVersion
    rw [h]
    dsimp only
    rw [if_neg h₁, if_neg h₂, if_neg h₃]
  · unfold incrementSemanticVersion
    rw [h, parseSemanticVersion_error_msg h]

theorem C5_incrementSemanticVersion_correct_witness :
    (incrementSemanticVersion "1.2.3".toList "patch".toList).bind parseSemanticVersion
        = .ok ⟨1, 2, 4⟩ ∧
      incrementSemanticVersion "1.2.3".toList "foo".toList
        = .error (invalidTypeMsg "foo".toList) ∧
      incrementSemanticVersion "1.2".toList "minor".toList
        = .error (invalidFormatMsg "1.2".toList) :=
  ⟨(C5_incrementSemanticVersion_correct.1 "1.2.3".toList 1 2 3 rfl).1,
    C5_incrementSemanticVersion_correct.2.1 "1.2.3".toList "foo".toList ⟨1, 2, 3⟩ rfl
      (by decide) (by decide) (by decide),
    C5_incrementSemanticVersion_correct.2.2 "1.2".toList "minor".toList
      (invalidFormatMsg "1.2".toList) rfl⟩

/-- C3 counterexample: the claim calls an explicit numeric zero a valid
override, distinct from "not provided"; but numeric `0` is falsy, so
`calculateNewBuildNumber(0, "10")` auto-increments to `11` instead of
returning the override `0`. -/
theorem C3_counterexample_numeric_zero :
    calculateNewBuildNumber (.num 0) (.str "10".toList) = some 11 ∧
      (11 : Int) ≠ 0 :=
  ⟨rfl, by decide⟩

/-- C3 (amended): `calculateNewBuildNumber(userValue, currentValue)`
returns the parsed integer value of `userValue` whenever `userValue` is
truthy and not the boolean `true` — the string `"0"` is a valid override,
but numeric zero is falsy and triggers auto-increment — and returns
`parseInt(currentValue) + 1` when `userValue` is `true`, the empty string,
boolean `false`, `null`, or numeric zero; concretely `(true,"41") = 42`,
`("99","41") = 99`, `("0","10") = 0`, `("","10") = 11`, `(false,"10") = 11`
and `(0,"10") = 11`. -/
theorem C3_calculateNewBuildNumber_spec :
    (∀ userValue currentValue : JSVal, userValue.truthy = true →
      userValue ≠ JSVal.bool true →
      calculateNewBuildNumber userValue currentValue = jsParseInt userValue) ∧
    (∀ userValue currentValue : JSVal,
      (userValue.truthy = false ∨ userValue = JSVal.bool true) →
      calculateNewBuildNumber userValue currentValue
        = (jsParseInt currentValue).map (· + 1)) ∧
    calculateNewBuildNumber (.bool true) (.str "41".toList) = some 42 ∧
    calculateNewBuildNumber (.str "99".toList) (.str "41".toList) = some 99 ∧
    calculateNewBuildNumber (.str "0".toList) (.str "10".toList) = some 0 ∧
    calculateNewBuildNumber (.str []) (.str "10".toList) = some 11 ∧
    calculateNewBuildNumber (.bool false) (.str "10".toList) = some 11 ∧
    calculateNewBuildNumber (.num 0) (.str "10".toList) = some 11 := by
  refine ⟨fun u c hu hne => ?_, fun u c h => ?_, rfl, rfl, rfl, rfl, rfl, rfl⟩
  · unfold calculateNewBuildNumber
    rw [if_pos ⟨hu, hne⟩]
  · unfold calculateNewBuildNumber
    rcases h with h | h
    · rw [if_neg]
      simp [h]
    · rw [if_neg]
      simp [h]

theorem C3_calculateNewBuildNumber_spec_witness :
    calculateNewBuildNumber (.str "7".toList) (.str "1".toList)
        = jsParseInt (.str "7".toList) ∧
      calculateNewBuildNumber JSVal.null (.str "1".toList)
        = (jsParseInt (.str "1".toList)).map (· + 1) :=
  ⟨C3_calculateNewBuildNumber_spec.1 (.str "7".toList) (.str "1".toList) rfl (by decide),
    C3_calculateNewBuildNumber_spec.2.1 JSVal.null (.str "1".toList) (Or.inl rfl)⟩

/-- C2 counterexample: an Android file with two `versionCode` occurrences;
`updateAndroidVersions` (via the non-global replace in
`updateAndroidFileContent`) rewrites only the first one, so the rewritten
content's occurrences are `["5", "1"]`, not all equal to the new value. -/
theorem C2_counterexample_android_second_occurrence_kept :
    ((updateAndroidVersions
        ⟨[("app/build.gradle",
            [.vc ['1'], .text " flavorText ".toList, .vc ['1'], .vn "1.0.0".toList])],
          [], []⟩
        ["app/build.gradle"] (.str ['5']) JSVal.null
        ⟨false, "root", some "patch".toList, none, false, []⟩).map
      fun r => (List.lookup "app/build.gradle" r.1.androidFiles).map vcOccurrences)
        = .ok (some [['5'], ['1']]) ∧ (['1'] : Str) ≠ ['5'] :=
  ⟨rfl, by decide⟩

/-- C2 (amended): the iOS rewrite is global — for every content and every
updated field, all occurrences are replaced with the identical new value —
while the Android rewrite is non-global: only the first occurrence of each
field's pattern is replaced and everything after it (including further
occurrences) is kept unchanged. -/
theorem C2_all_occurrences :
    (∀ (content : PbxContent) (n : Int) (v : Str), 0 ≤ n → v ≠ [] → ';' ∉ v →
      updateIOSFileContent content (some n) v true true =
        content.map fun l => match l with
          | .cpv _ => .cpv (natChars n.toNat)
          | .mv _ => .mv v
          | .text s => .text s) ∧
    (∀ (pre post : GradleContent) (s : Str) (n : Int) (v : Str),
      (∀ l ∈ pre, ∀ u, l ≠ GLine.vc u) → 0 ≤ n →
      updateAndroidFileContent (pre ++ .vc s :: post) (some n) v false =
        pre ++ .vc (natChars n.toNat) :: post) ∧
    (∀ (pre post : GradleContent) (s v : Str),
      (∀ l ∈ pre, ∀ u, l ≠ GLine.vn u) → v ≠ [] → '"' ∉ v →
      replaceFirstVN (pre ++ .vn s :: post) v = pre ++ .vn v :: post) := by
  refine ⟨fun content n v hn hv hsemi => ?_, fun pre post s n v hpre hn => ?_,
    fun pre post s v hpre hv hq => ?_⟩
  · unfold updateIOSFileContent
    simp only [if_true]
    rw [List.map_map]
    induction content with
    | nil => rfl
    | cons l rest ih =>
      rw [List.map_cons, List.map_cons, ih]
      cases l with
      | cpv s => simp [cpvLine, hn]
      | mv s => simp [mvLine, hv, hsemi]
      | text s => rfl
  · unfold updateAndroidFileContent
    simp only [if_neg (Bool.false_ne_true)]
    induction pre with
    | nil => simp [replaceFirstVC, vcLine, hn]
    | cons l pre' ih =>
      have hl := hpre l (List.mem_cons_self l pre')
      have ih' := ih fun l hl' => hpre l (List.mem_cons_of_mem _ hl')
      cases l with
      | vc u => exact absurd rfl (hl u)
      | vn u => simpa [replaceFirstVC] using ih'
      | text u => simpa [replaceFirstVC] using ih'
  · induction pre with
    | nil => simp [replaceFirstVN, vnLine, hv, hq]
    | cons l pre' ih =>
      have hl := hpre l (List.mem_cons_self l pre')
      have ih' := ih fun l hl' => hpre l (List.mem_cons_of_mem _ hl')
      cases l with
      | vn u => exact absurd rfl (hl u)
      | vc u => simpa [replaceFirstVN] using ih'
      | text u => simpa [replaceFirstVN] using ih'

theorem C2_all_occurrences_witness :
    updateIOSFileContent [.cpv ['1'], .mv "1.0.0".toList, .cpv ['1'], .mv "1.0.0".toList]
        (some 2) "1.1.0".toList true true
        = [.cpv ['2'], .mv "1.1.0".toList, .cpv ['2'], .mv "1.1.0".toList] ∧
      updateAndroidFileContent [.text " prefixText ".toList, .vc ['1'], .vc ['3']]
        (some 2) [] false
        = [.text " prefixText ".toList, .vc ['2'], .vc ['3']] := by
  constructor
  · exact C2_all_occurrences.1
      [.cpv ['1'], .mv "1.0.0".toList, .cpv ['1'], .mv "1.0.0".toList]
      2 "1.1.0".toList (by decide) (by decide) (by decide)
  · exact C2_all_occurrences.2.1 [.text " prefixText ".toList] [.vc ['3']]
      ['1'] 2 [] (by simp) (by decide)

/-- C1: the code violates the Skip contract for Android's `versionCode`.
`src/index.js` passes `versionCode = null` in `android-name-only` mode
("versionCode is not updated for name-only updates") and the repository's
own test expects the file to keep `versionCode 1` and the result to report
`1`; but `processAndroidFile` feeds `null` (falsy) into
`calculateNewBuildNumber`, auto-increments, always rewrites the field and
always appends a versionCode change record.  Evaluating the failing input:
file `versionCode 1` / `versionName "1.0.0"`, `versionCode = null`,
`versionName = true`, increment `major` — the on-disk versionCode text
becomes `2` and a versionCode change record is appended. -/
theorem C1_code_bug_android_null_versionCode :
    ((updateAndroidVersions
        ⟨[("android/app/build.gradle", [.vc ['1'], .vn "1.0.0".toList])], [], []⟩
        ["android/app/build.gradle"] JSVal.null (.bool true)
        ⟨false, "root", some "major".toList, none, false, []⟩).map
      fun r =>
        ((List.lookup "android/app/build.gradle" r.1.androidFiles).map vcOccurrences,
          r.2.2.changes.map Change.item,
          r.2.1.map AndroidResult.versionCode))
      = .ok (some [['2']], ["versionCode", "versionName"], [some 2]) ∧
      (['2'] : Str) ≠ ['1'] :=
  ⟨rfl, by decide⟩

/-! ## Association-list helpers -/

theorem lookup_setKey_self {α : Type} (k : String) (v : α) (l : List (String × α)) :
    List.lookup k (setKey k v l) = some v := by
  induction l with
  | nil => simp [setKey, List.lookup]
  | cons kv rest ih =>
    rcases kv with ⟨k₀, v₀⟩
    by_cases h : k₀ = k
    · simp [setKey, h, List.lookup]
    · have hb : (k == k₀) = false := beq_eq_false_iff_ne.mpr (Ne.symm h)
      simp only [setKey, if_neg h, List.lookup, hb]
      exact ih

theorem lookup_setKey_ne {α : Type} (k k' : String) (v : α) (l : List (String × α))
    (h : k' ≠ k) : List.lookup k' (setKey k v l) = List.lookup k' l := by
  have hb : (k' == k) = false := beq_eq_false_iff_ne.mpr h
  induction l with
  | nil => simp [setKey, List.lookup, hb]
  | cons kv rest ih =>
    rcases kv with ⟨k₀, v₀⟩
    by_cases h₀ : k₀ = k
    · subst h₀
      simp [setKey, List.lookup, hb]
    · simp only [setKey, if_neg h₀, List.lookup]
      cases hbk : k' == k₀ <;> simp [hbk, ih]

/-- C7 counterexample: the claim says a successful `updatePackageJsonVersion`
preserves the document's serialization style; but the write is
`JSON.stringify(packageData, null, 2) + '\n'`, so a 4-space-indented file
without a trailing newline comes back 2-space-indented with one. -/
theorem C7_counterexample_style_normalized :
    ((updatePackageJsonVersion
        [("package.json", ⟨[("name", "x".toList), ("version", "1.0.0".toList)], 4, false⟩)]
        "package.json" "1.1.0".toList ⟨false, "root", none, none, false, []⟩).1
      |> List.lookup "package.json"
      |>.map fun d => (d.indent, d.trailingNewline))
      = some (2, true) ∧ ((2 : Nat), true) ≠ ((4 : Nat), false) :=
  ⟨rfl, by decide⟩

/-- C7 (amended): when `updatePackageJsonVersion` succeeds — the target
file exists and its parsed content has a (truthy) version field — the
rewritten document keeps every field other than `version` (in order) with
`version` overwritten in place, but is re-serialized with 2-space
indentation and a trailing newline regardless of the original style; no
other file is touched; exactly one change record is appended and the new
version is returned. -/
theorem C7_updatePackageJsonVersion_success (pkgs : List (String × PkgDoc))
    (path : String) (newVersion : Str) (o : Options) (doc : PkgDoc) (cur : Str)
    (hdoc : List.lookup path pkgs = some doc)
    (hver : List.lookup "version" doc.fields = some cur)
    (hne : cur ≠ []) (hdry : o.dryRun = false) :
    (updatePackageJsonVersion pkgs path newVersion o).2.1 = some newVersion ∧
      List.lookup path (updatePackageJsonVersion pkgs path newVersion o).1
        = some ⟨setKey "version" newVersion doc.fields, 2, true⟩ ∧
      List.lookup "version" (setKey "version" newVersion doc.fields) = some newVersion ∧
      (∀ k, k ≠ "version" →
        List.lookup k (setKey "version" newVersion doc.fields)
          = List.lookup k doc.fields) ∧
      (∀ q, q ≠ path →
        List.lookup q (updatePackageJsonVersion pkgs path newVersion o).1
          = List.lookup q pkgs) ∧
      (updatePackageJsonVersion pkgs path newVersion o).2.2
        = { o with changes := o.changes ++
            [⟨"Package.json", relPath o.projectRoot path, "version", cur, newVersion⟩] } := by
  have hmain : updatePackageJsonVersion pkgs path newVersion o =
      (setKey path ⟨setKey "version" newVersion doc.fields, 2, true⟩ pkgs,
        some newVersion,
        { o with changes := o.changes ++
          [⟨"Package.json", relPath o.projectRoot path, "version", cur, newVersion⟩] }) := by
    unfold updatePackageJsonVersion
    rw [hdoc]
    dsimp only
    rw [hver]
    dsimp only
    rw [if_neg hne, hdry]
    simp
  rw [hmain]
  refine ⟨rfl, lookup_setKey_self _ _ _, lookup_setKey_self _ _ _,
    fun k hk => lookup_setKey_ne _ _ _ _ hk,
    fun q hq => lookup_setKey_ne _ _ _ _ hq, rfl⟩

theorem C7_updatePackageJsonVersion_success_witness :
    (updatePackageJsonVersion
        [("package.json", ⟨[("name", "x".toList), ("version", "1.0.0".toList)], 2, true⟩)]
        "package.json" "1.1.0".toList ⟨false, "root", none, none, false, []⟩).2.1
      = some "1.1.0".toList :=
  (C7_updatePackageJsonVersion_success
    [("package.json", ⟨[("name", "x".toList), ("version", "1.0.0".toList)], 2, true⟩)]
    "package.json" "1.1.0".toList ⟨false, "root", none, none, false, []⟩
    ⟨[("name", "x".toList), ("version", "1.0.0".toList)], 2, true⟩ "1.0.0".toList
    rfl rfl (by decide) rfl).1

theorem lookup_append {α : Type} (k : String) (xs ys : List (String × α)) :
    List.lookup k (xs ++ ys) =
      match List.lookup k xs with
      | some v => some v
      | none => List.lookup k ys := by
  induction xs with
  | nil => simp [List.lookup]
  | cons kv rest ih =>
    rcases kv with ⟨k₀, v₀⟩
    simp only [List.cons_append, List.lookup]
    cases k == k₀ <;> simp [ih]

theorem lookup_map_keyed {α β : Type} (k : String) (g : String → α → β)
    (d : List (String × α)) :
    List.lookup k (d.map fun kv => (kv.1, g kv.1 kv.2)) = (List.lookup k d).map (g k) := by
  induction d with
  | nil => simp [List.lookup]
  | cons kv rest ih =>
    rcases kv with ⟨k₀, v₀⟩
    simp only [List.map_cons, List.lookup]
    cases hb : k == k₀
    · simp [ih]
    · have : k = k₀ := eq_of_beq hb
      subst this
      simp

theorem lookup_filter_key_true {α : Type} (k : String) (P : String × α → Bool)
    (u : List (String × α)) (h : ∀ v, P (k, v) = true) :
    List.lookup k (u.filter P) = List.lookup k u := by
  induction u with
  | nil => simp
  | cons kv rest ih =>
    rcases kv with ⟨k₀, v₀⟩
    by_cases hk : k = k₀
    · subst hk
      rw [List.filter_cons, if_pos (by simp [h v₀])]
      simp [List.lookup]
    · have hb : (k == k₀) = false := beq_eq_false_iff_ne.mpr hk
      rw [List.filter_cons]
      by_cases hp : P (k₀, v₀) = true
      · rw [if_pos (by simp [hp])]
        simp [List.lookup, hb, ih]
      · rw [if_neg (by simpa using hp)]
        simp [List.lookup, hb, ih]

theorem lookup_filter_key_false {α : Type} (k : String) (P : String × α → Bool)
    (u : List (String × α)) (h : ∀ v, P (k, v) = false) :
    List.lookup k (u.filter P) = none := by
  induction u with
  | nil => simp
  | cons kv rest ih =>
    rcases kv with ⟨k₀, v₀⟩
    by_cases hk : k = k₀
    · subst hk
      rw [List.filter_cons, if_neg (by simp [h v₀])]
      exact ih
    · have hb : (k == k₀) = false := beq_eq_false_iff_ne.mpr hk
      rw [List.filter_cons]
      by_cases hp : P (k₀, v₀) = true
      · rw [if_pos (by simp [hp])]
        simp [List.lookup, hb, ih]
      · rw [if_neg (by simpa using hp)]
        exact ih

theorem lookup_mergeConfigs (d u : List (String × JVal)) (k : String) :
    List.lookup k (mergeConfigs d u) =
      match List.lookup k d with
      | some dv =>
        some (match List.lookup k u with
          | some (.obj fu) => .obj (objSpread (spreadFields dv) fu)
          | some uv => uv
          | none => dv)
      | none => List.lookup k u := by
  unfold mergeConfigs
  rw [lookup_append]
  have hfun : (fun kv : String × JVal =>
      match List.lookup kv.1 u with
      | some (.obj fu) => (kv.1, JVal.obj (objSpread (spreadFields kv.2) fu))
      | some uv => (kv.1, uv)
      | none => kv) =
      fun kv : String × JVal => (kv.1,
        match List.lookup kv.1 u with
        | some (.obj fu) => JVal.obj (objSpread (spreadFields kv.2) fu)
        | some uv => uv
        | none => kv.2) := by
    funext kv
    rcases kv with ⟨k₀, dv⟩
    dsimp only
    cases hu : List.lookup k₀ u with
    | none => rfl
    | some v => cases v <;> rfl
  have hmap : List.lookup k (d.map fun kv =>
      match List.lookup kv.1 u with
      | some (.obj fu) => (kv.1, JVal.obj (objSpread (spreadFields kv.2) fu))
      | some uv => (kv.1, uv)
      | none => kv) =
      (List.lookup k d).map fun dv =>
        match List.lookup k u with
        | some (.obj fu) => JVal.obj (objSpread (spreadFields dv) fu)
        | some uv => uv
        | none => dv := by
    rw [hfun]
    exact lookup_map_keyed k (fun k₀ dv =>
      match List.lookup k₀ u with
      | some (.obj fu) => JVal.obj (objSpread (spreadFields dv) fu)
      | some uv => uv
      | none => dv) d
  rw [hmap]
  match hd : List.lookup k d with
  | some dv =>
    simp only [Option.map_some]
    rfl
  | none =>
    simp only [Option.map_none]
    exact lookup_filter_key_true k _ u fun v => by simp [hd]

/-- C9: configuration loading is total (this model is a plain function —
nothing raises); a candidate that is missing, fails to load/parse, or is
not a plain key-value object yields `none` from `loadConfigFromPath` and
the scan moves to the next candidate; when every candidate fails the
defaults are returned unmodified; and a successfully loaded config is
merged over the defaults with object-valued values spread-merged key by
key, any other defined value replacing the default wholesale, absent keys
keeping the default, and unknown user keys appended. -/
theorem C9_loadProjectConfiguration_spec :
    (∀ (cfgs : List (String × CfgFile)) (root : String),
      (∀ p ∈ configFileNames.map (joinPath root), loadConfigFromPath cfgs p = none) →
      loadProjectConfiguration cfgs root none = DEFAULT_CONFIG) ∧
    (∀ (cfgs : List (String × CfgFile)) (root cp : String),
      loadConfigFromPath cfgs cp = none →
      (∀ p ∈ configFileNames.map (joinPath root), loadConfigFromPath cfgs p = none) →
      loadProjectConfiguration cfgs root (some cp) = DEFAULT_CONFIG) ∧
    (∀ (cfgs : List (String × CfgFile)) (p : String) (ps : List String),
      loadConfigFromPath cfgs p = none →
      scanConfigs cfgs (p :: ps) = scanConfigs cfgs ps) ∧
    (∀ (cfgs : List (String × CfgFile)) (p : String) (ps : List String)
        (c : List (String × JVal)),
      loadConfigFromPath cfgs p = some c →
      scanConfigs cfgs (p :: ps) = mergeConfigs DEFAULT_CONFIG c) ∧
    (∀ (cfgs : List (String × CfgFile)) (root cp : String) (c : List (String × JVal)),
      loadConfigFromPath cfgs cp = some c →
      loadProjectConfiguration cfgs root (some cp) = mergeConfigs DEFAULT_CONFIG c) ∧
    (∀ (u : List (String × JVal)) (k : String),
      List.lookup k (mergeConfigs DEFAULT_CONFIG u) =
        match List.lookup k DEFAULT_CONFIG with
        | some dv =>
          some (match List.lookup k u with
            | some (.obj fu) => .obj (objSpread (spreadFields dv) fu)
            | some uv => uv
            | none => dv)
        | none => List.lookup k u) := by
  have hscan : ∀ (cfgs : List (String × CfgFile)) (ps : List String),
      (∀ p ∈ ps, loadConfigFromPath cfgs p = none) →
      scanConfigs cfgs ps = DEFAULT_CONFIG := by
    intro cfgs ps h
    induction ps with
    | nil => rfl
    | cons p rest ih =>
      rw [scanConfigs, h p (List.mem_cons_self p rest)]
      exact ih fun q hq => h q (List.mem_cons_of_mem _ hq)
  refine ⟨fun cfgs root h => ?_, fun cfgs root cp hcp h => ?_,
    fun cfgs p ps h => ?_, fun cfgs p ps c h => ?_, fun cfgs root cp c h => ?_,
    fun u k => lookup_mergeConfigs DEFAULT_CONFIG u k⟩
  · exact hscan cfgs _ h
  · unfold loadProjectConfiguration
    dsimp only
    rw [hcp]
    exact hscan cfgs _ h
  · rw [scanConfigs, h]
  · rw [scanConfigs, h]
  · unfold loadProjectConfiguration
    dsimp only
    rw [h]

theorem C9_loadProjectConfiguration_spec_witness :
    loadProjectConfiguration
        [("proj/vbump.config.js", CfgFile.bad),
          ("proj/vbump.config.json", CfgFile.val (.arr [])),
          ("proj/.vbump.config.json",
            CfgFile.val (.obj [("android", .obj [("files", .arr [.str "custom.gradle"])])]))]
        "proj" none
      = mergeConfigs DEFAULT_CONFIG
          [("android", .obj [("files", .arr [.str "custom.gradle"])])] := by
  have h₁ := C9_loadProjectConfiguration_spec.2.2.1
    [("proj/vbump.config.js", CfgFile.bad),
      ("proj/vbump.config.json", CfgFile.val (.arr [])),
      ("proj/.vbump.config.json",
        CfgFile.val (.obj [("android", .obj [("files", .arr [.str "custom.gradle"])])]))]
    "proj/vbump.config.js"
    ["proj/vbump.config.json", "proj/.vbump.config.js", "proj/.vbump.config.json"] rfl
  have h₂ := C9_loadProjectConfiguration_spec.2.2.2.1
    [("proj/vbump.config.js", CfgFile.bad),
      ("proj/vbump.config.json", CfgFile.val (.arr [])),
      ("proj/.vbump.config.json",
        CfgFile.val (.obj [("android", .obj [("files", .arr [.str "custom.gradle"])])]))]
    "proj/.vbump.config.json" []
    [("android", .obj [("files", .arr [.str "custom.gradle"])])] rfl
  calc loadProjectConfiguration _ "proj" none
      = scanConfigs _ ["proj/vbump.config.js", "proj/vbump.config.json",
          "proj/.vbump.config.js", "proj/.vbump.config.json"] := rfl
    _ = scanConfigs _ ["proj/vbump.config.json", "proj/.vbump.config.js",
          "proj/.vbump.config.json"] := h₁
    _ = scanConfigs _ ["proj/.vbump.config.js", "proj/.vbump.config.json"] :=
          C9_loadProjectConfiguration_spec.2.2.1 _ _ _ rfl
    _ = scanConfigs _ ["proj/.vbump.config.json"] :=
          C9_loadProjectConfiguration_spec.2.2.1 _ _ _ rfl
    _ = mergeConfigs DEFAULT_CONFIG
          [("android", .obj [("files", .arr [.str "custom.gradle"])])] := h₂

/-- C10 counterexample: a directory whose `package.json` lists
`react-native` in `dependencies` with an empty-string version (npm's "any
version") and that has an `android` directory.  The claim's criterion —
exact name match in either dependency set, plus a platform directory —
accepts it, but `hasReactNativeDependencies` tests JavaScript truthiness of
the merged value, so the empty string is not recognized and the walk
returns `null`. -/
theorem C10_counterexample_empty_version_value :
    specDirQualifies ⟨"proj", some (.parsed [("react-native", [])] []), true, false⟩ = true ∧
      detectReactNativeProject
        [⟨"proj", some (.parsed [("react-native", [])] []), true, false⟩] = none :=
  ⟨rfl, rfl⟩

/-- C10 (amended): `detectReactNativeProject` returns the path of the first
walked directory (from `startDir` upward, the root excluded) whose
`package.json` parses, declares a recognized allow-listed package with a
truthy version value in the spread-merge of `dependencies` and
`devDependencies` (`devDependencies` taking precedence; an empty-string
value is not recognized), and that has an `android` or `ios` directory;
a present-but-unparseable manifest behaves exactly like an absent one; the
walk exhausting the chain (filesystem root reached) yields `null`. -/
theorem C10_detectReactNativeProject_first_qualifying :
    (∀ dirs : List DirInfo,
      detectReactNativeProject dirs = (dirs.find? dirQualifies).map DirInfo.path) ∧
    (∀ (p : String) (a i : Bool) (rest : List DirInfo),
      detectReactNativeProject (⟨p, some .bad, a, i⟩ :: rest)
          = detectReactNativeProject rest ∧
        detectReactNativeProject (⟨p, none, a, i⟩ :: rest)
          = detectReactNativeProject rest) ∧
    detectReactNativeProject [] = none := by
  refine ⟨fun dirs => ?_, fun p a i rest => ⟨rfl, rfl⟩, rfl⟩
  induction dirs with
  | nil => rfl
  | cons d rest ih =>
    rcases d with ⟨p, mf, a, i⟩
    match mf with
    | none => simpa [detectReactNativeProject, dirQualifies, List.find?] using ih
    | some .bad => simpa [detectReactNativeProject, dirQualifies, List.find?] using ih
    | some (.parsed deps devDeps) =>
      simp only [detectReactNativeProject]
      by_cases h : hasReactNativeDependencies deps devDeps = true ∧ (a = true ∨ i = true)
      · have hq : dirQualifies ⟨p, some (.parsed deps devDeps), a, i⟩ = true := by
          simp only [dirQualifies, Bool.and_eq_true, Bool.or_eq_true]
          exact h
        rw [if_pos h, List.find?_cons_of_pos _ hq]
        rfl
      · have hq : dirQualifies ⟨p, some (.parsed deps devDeps), a, i⟩ = false := by
          rw [Bool.eq_false_iff]
          intro hrn
          simp only [dirQualifies, Bool.and_eq_true, Bool.or_eq_true] at hrn
          exact h hrn
        rw [if_neg h, List.find?_cons_of_neg _ (by simp [hq]), ih]

/-! ## Skipping of missing files and missing patterns -/

theorem processAndroidFile_bad {fs : FS} {f : String} (vc vn : JSVal) (o : Options)
    (h : badAndroidFile fs f) :
    processAndroidFile fs f vc vn o = .ok (fs, none, o) := by
  unfold processAndroidFile
  rcases h with h | ⟨content, hc, hf⟩
  · rw [h]
  · rw [hc]
    dsimp only
    rcases hf with hf | hf
    · rw [hf]
      try cases firstVN content <;> rfl
    · rw [hf]
      try cases firstVC content <;> rfl

theorem processIOSFile_bad {fs : FS} {f : String} (cpv mv : JSVal) (o : Options)
    (h : badIOSFile fs f) :
    processIOSFile fs f cpv mv o = .ok (fs, none, o) := by
  unfold processIOSFile
  rcases h with h | ⟨content, hc, hf⟩
  · rw [h]
  · rw [hc]
    dsimp only
    rcases hf with hf | hf
    · rw [hf]
      try cases allMV content <;> rfl
    · rw [hf]
      try cases allCPV content <;> rfl

theorem syncPackageJson_androidFiles (fs : FS) (o : Options) (nv : Str) (b : Bool) :
    (syncPackageJson fs o nv b).1.androidFiles = fs.androidFiles := by
  unfold syncPackageJson
  cases o.packageJsonPath with
  | none => rfl
  | some p =>
    by_cases h : ¬o.packageJsonUpdated ∧ b
    · simp only [if_pos h]
    · simp only [if_neg h]

theorem syncPackageJson_iosFiles (fs : FS) (o : Options) (nv : Str) (b : Bool) :
    (syncPackageJson fs o nv b).1.iosFiles = fs.iosFiles := by
  unfold syncPackageJson
  cases o.packageJsonPath with
  | none => rfl
  | some p =>
    by_cases h : ¬o.packageJsonUpdated ∧ b
    · simp only [if_pos h]
    · simp only [if_neg h]

theorem badAndroidFile_preserved {fs fs₁ : FS} {f : String} {vc vn : JSVal}
    {o o₁ : Options} {r : Option AndroidResult} {bad : String}
    (hb : badAndroidFile fs bad)
    (h : processAndroidFile fs f vc vn o = .ok (fs₁, r, o₁)) : badAndroidFile fs₁ bad := by
  unfold processAndroidFile at h
  cases hc : List.lookup f fs.androidFiles with
  | none =>
    rw [hc] at h
    simp only [Except.ok.injEq, Prod.mk.injEq] at h
    rw [← h.1]
    exact hb
  | some content =>
    rw [hc] at h
    dsimp only at h
    cases hvc : firstVC content with
    | none =>
      rw [hvc] at h
      cases hvn : firstVN content <;> rw [hvn] at h <;>
        simp only [Except.ok.injEq, Prod.mk.injEq] at h <;>
        rw [← h.1] <;> exact hb
    | some cvc =>
      rw [hvc] at h
      cases hvn : firstVN content with
      | none =>
        rw [hvn] at h
        simp only [Except.ok.injEq, Prod.mk.injEq] at h
        rw [← h.1]
        exact hb
      | some cvn =>
        rw [hvn] at h
        dsimp only at h
        cases hsem : (if vn ≠ JSVal.null then
            calculateNewSemanticVersion vn cvn (effIncrement o)
          else .ok cvn) with
        | error e =>
          rw [hsem] at h
          exact absurd h (by simp)
        | ok newVN =>
          rw [hsem] at h
          simp only [Except.ok.injEq, Prod.mk.injEq] at h
          have hbadf : bad ≠ f := by
            intro hbf
            subst hbf
            rcases hb with hb | ⟨c, hbc, hbf⟩
            · rw [hb] at hc
              exact Option.noConfusion hc
            · rw [hbc] at hc
              cases hc
              rcases hbf with hbf | hbf
              · rw [hbf] at hvc
                exact Option.noConfusion hvc
              · rw [hbf] at hvn
                exact Option.noConfusion hvn
          have hlook : List.lookup bad fs₁.androidFiles
              = List.lookup bad fs.androidFiles := by
            rw [← h.1, syncPackageJson_androidFiles]
            by_cases hd : o.dryRun
            · rw [if_pos hd]
            · rw [if_neg hd]
              dsimp only
              exact lookup_setKey_ne _ _ _ _ hbadf
          rcases hb with hb | ⟨c, hbc, hbf⟩
          · exact Or.inl (hlook.trans hb)
          · exact Or.inr ⟨c, hlook.trans hbc, hbf⟩

theorem badIOSFile_preserved {fs fs₁ : FS} {f : String} {cpv mv : JSVal}
    {o o₁ : Options} {r : Option IOSResult} {bad : String}
    (hb : badIOSFile fs bad)
    (h : processIOSFile fs f cpv mv o = .ok (fs₁, r, o₁)) : badIOSFile fs₁ bad := by
  unfold processIOSFile at h
  cases hc : List.lookup f fs.iosFiles with
  | none =>
    rw [hc] at h
    simp only [Except.ok.injEq, Prod.mk.injEq] at h
    rw [← h.1]
    exact hb
  | some content =>
    rw [hc] at h
    dsimp only at h
    cases hvc : allCPV content with
    | nil =>
      rw [hvc] at h
      cases hvn : allMV content <;> rw [hvn] at h <;>
        simp only [Except.ok.injEq, Prod.mk.injEq] at h <;>
        rw [← h.1] <;> exact hb
    | cons cpv₀ cpvs =>
      rw [hvc] at h
      cases hvn : allMV content with
      | nil =>
        rw [hvn] at h
        simp only [Except.ok.injEq, Prod.mk.injEq] at h
        rw [← h.1]
        exact hb
      | cons mv₀ mvs =>
        rw [hvn] at h
        dsimp only at h
        cases hsem : (if mv ≠ JSVal.null then
            calculateNewSemanticVersion mv mv₀ (effIncrement o)
          else .ok mv₀) with
        | error e =>
          rw [hsem] at h
          exact absurd h (by simp)
        | ok newMV =>
          rw [hsem] at h
          simp only [Except.ok.injEq, Prod.mk.injEq] at h
          have hbadf : bad ≠ f := by
            intro hbf
            subst hbf
            rcases hb with hb | ⟨c, hbc, hbf⟩
            · rw [hb] at hc
              exact Option.noConfusion hc
            · rw [hbc] at hc
              cases hc
              rcases hbf with hbf | hbf
              · rw [hbf] at hvc
                exact List.noConfusion hvc
              · rw [hbf] at hvn
                exact List.noConfusion hvn
          have hlook : List.lookup bad fs₁.iosFiles
              = List.lookup bad fs.iosFiles := by
            rw [← h.1, syncPackageJson_iosFiles]
            by_cases hd : o.dryRun
            · rw [if_pos hd]
            · rw [if_neg hd]
              dsimp only
              exact lookup_setKey_ne _ _ _ _ hbadf
          rcases hb with hb | ⟨c, hbc, hbf⟩
          · exact Or.inl (hlook.trans hb)
          · exact Or.inr ⟨c, hlook.trans hbc, hbf⟩

theorem updateAndroidVersions_skip_bad {bad : String} (vc vn : JSVal) :
    ∀ (l₁ : List String) (fs : FS) (o : Options) (l₂ : List String),
    badAndroidFile fs bad →
    updateAndroidVersions fs (l₁ ++ bad :: l₂) vc vn o
      = updateAndroidVersions fs (l₁ ++ l₂) vc vn o := by
  intro l₁
  induction l₁ with
  | nil =>
    intro fs o l₂ hb
    show updateAndroidVersions fs (bad :: l₂) vc vn o
      = updateAndroidVersions fs l₂ vc vn o
    rw [updateAndroidVersions, processAndroidFile_bad vc vn o hb]
    dsimp only
    cases h₂ : updateAndroidVersions fs l₂ vc vn o with
    | error e => rfl
    | ok t => rfl
  | cons f l₁' ih =>
    intro fs o l₂ hb
    show updateAndroidVersions fs (f :: (l₁' ++ bad :: l₂)) vc vn o
      = updateAndroidVersions fs (f :: (l₁' ++ l₂)) vc vn o
    rw [updateAndroidVersions.eq_def]
    conv_rhs => rw [updateAndroidVersions.eq_def]
    dsimp only
    cases hp : processAndroidFile fs f vc vn o with
    | error e => rfl
    | ok t =>
      rcases t with ⟨fs₁, r, o₁⟩
      dsimp only
      rw [ih fs₁ o₁ l₂ (badAndroidFile_preserved hb hp)]

theorem updateIOSVersions_skip_bad {bad : String} (cpv mv : JSVal) :
    ∀ (l₁ : List String) (fs : FS) (o : Options) (l₂ : List String),
    badIOSFile fs bad →
    updateIOSVersions fs (l₁ ++ bad :: l₂) cpv mv o
      = updateIOSVersions fs (l₁ ++ l₂) cpv mv o := by
  intro l₁
  induction l₁ with
  | nil =>
    intro fs o l₂ hb
    show updateIOSVersions fs (bad :: l₂) cpv mv o
      = updateIOSVersions fs l₂ cpv mv o
    rw [updateIOSVersions, processIOSFile_bad cpv mv o hb]
    dsimp only
    cases h₂ : updateIOSVersions fs l₂ cpv mv o with
    | error e => rfl
    | ok t => rfl
  | cons f l₁' ih =>
    intro fs o l₂ hb
    show updateIOSVersions fs (f :: (l₁' ++ bad :: l₂)) cpv mv o
      = updateIOSVersions fs (f :: (l₁' ++ l₂)) cpv mv o
    rw [updateIOSVersions.eq_def]
    conv_rhs => rw [updateIOSVersions.eq_def]
    dsimp only
    cases hp : processIOSFile fs f cpv mv o with
    | error e => rfl
    | ok t =>
      rcases t with ⟨fs₁, r, o₁⟩
      dsimp only
      rw [ih fs₁ o₁ l₂ (badIOSFile_preserved hb hp)]

/-- C8: a resolved file that does not exist, or whose content lacks a
required field pattern, is skipped: processing it returns no result, no
change record, and leaves the filesystem and options untouched; and a whole
batch containing such a file behaves exactly like the batch with that file
removed — its siblings are still processed, the bad file contributes
nothing to the result list or the change log, and no partial write
happens. -/
theorem C8_bad_files_skipped :
    (∀ (fs : FS) (bad : String) (vc vn : JSVal) (o : Options),
      badAndroidFile fs bad →
      processAndroidFile fs bad vc vn o = .ok (fs, none, o)) ∧
    (∀ (fs : FS) (bad : String) (vc vn : JSVal) (o : Options) (l₁ l₂ : List String),
      badAndroidFile fs bad →
      updateAndroidVersions fs (l₁ ++ bad :: l₂) vc vn o
        = updateAndroidVersions fs (l₁ ++ l₂) vc vn o) ∧
    (∀ (fs : FS) (bad : String) (cpv mv : JSVal) (o : Options),
      badIOSFile fs bad →
      processIOSFile fs bad cpv mv o = .ok (fs, none, o)) ∧
    (∀ (fs : FS) (bad : String) (cpv mv : JSVal) (o : Options) (l₁ l₂ : List String),
      badIOSFile fs bad →
      updateIOSVersions fs (l₁ ++ bad :: l₂) cpv mv o
        = updateIOSVersions fs (l₁ ++ l₂) cpv mv o) :=
  ⟨fun _ _ vc vn o hb => processAndroidFile_bad vc vn o hb,
    fun _ _ vc vn o l₁ l₂ hb => updateAndroidVersions_skip_bad vc vn l₁ _ o l₂ hb,
    fun _ _ cpv mv o hb => processIOSFile_bad cpv mv o hb,
    fun _ _ cpv mv o l₁ l₂ hb => updateIOSVersions_skip_bad cpv mv l₁ _ o l₂ hb⟩

theorem C8_bad_files_skipped_witness :
    updateAndroidVersions
        ⟨[("a.gradle", [.vc ['1'], .vn "1.0.0".toList])], [], []⟩
        ["missing.gradle", "a.gradle"] (.bool true) JSVal.null
        ⟨false, "root", none, none, false, []⟩
      = updateAndroidVersions
        ⟨[("a.gradle", [.vc ['1'], .vn "1.0.0".toList])], [], []⟩
        ["a.gradle"] (.bool true) JSVal.null
        ⟨false, "root", none, none, false, []⟩ :=
  C8_bad_files_skipped.2.1
    ⟨[("a.gradle", [.vc ['1'], .vn "1.0.0".toList])], [], []⟩
    "missing.gradle" (.bool true) JSVal.null
    ⟨false, "root", none, none, false, []⟩ [] ["a.gradle"] (Or.inl rfl)

/-! ## Shape lemmas for the mutator pipeline -/

theorem recordAndroidChanges_eq (f : String) (cvc : Str) (nvc : Option Int)
    (cvn nvn : Str) (u : Bool) (o : Options) :
    recordAndroidChanges f cvc nvc cvn nvn u o =
      { o with changes := o.changes ++
        (⟨"Android", relPath o.projectRoot f, "versionCode", cvc, numRender nvc⟩ ::
          if u then [⟨"Android", relPath o.projectRoot f, "versionName", cvn, nvn⟩]
          else []) } := by
  unfold recordAndroidChanges
  cases u with
  | false => simp
  | true => simp

theorem recordIOSChanges_eq (f : String) (ccpv : Str) (ncpv : Option Int)
    (cmv nmv : Str) (u₁ u₂ : Bool) (o : Options) :
    recordIOSChanges f ccpv ncpv cmv nmv u₁ u₂ o =
      { o with changes := o.changes ++
        ((if u₁ then
            [⟨"iOS", relPath o.projectRoot f, "CURRENT_PROJECT_VERSION", ccpv,
              numRender ncpv⟩]
          else []) ++
          if u₂ then [⟨"iOS", relPath o.projectRoot f, "MARKETING_VERSION", cmv, nmv⟩]
          else []) } := by
  unfold recordIOSChanges
  cases u₁ with
  | false =>
    cases u₂ with
    | false => simp
    | true => simp
  | true =>
    cases u₂ with
    | false => simp
    | true => simp

theorem syncPackageJson_guard_true (fs : FS) (o : Options) (nv : Str) (b : Bool)
    (hg : o.packageJsonUpdated = true) : syncPackageJson fs o nv b = (fs, o) := by
  unfold syncPackageJson
  cases o.packageJsonPath with
  | none => rfl
  | some p =>
    dsimp only
    rw [if_neg]
    intro hc
    rw [hg] at hc
    exact hc.1 rfl

theorem updatePackageJsonVersion_success_eq {pkgs : List (String × PkgDoc)}
    {path : String} {newVersion : Str} {o : Options} {doc : PkgDoc} {cur : Str}
    (hdoc : List.lookup path pkgs = some doc)
    (hver : List.lookup "version" doc.fields = some cur) (hne : cur ≠ []) :
    updatePackageJsonVersion pkgs path newVersion o =
      ((if o.dryRun then pkgs
        else setKey path ⟨setKey "version" newVersion doc.fields, 2, true⟩ pkgs),
        some newVersion,
        { o with changes := o.changes ++
          [⟨"Package.json", relPath o.projectRoot path, "version", cur, newVersion⟩] }) := by
  unfold updatePackageJsonVersion
  rw [hdoc]
  dsimp only
  rw [hver]
  dsimp only
  rw [if_neg hne]

theorem updatePackageJsonVersion_opts_shape (pkgs : List (String × PkgDoc))
    (path : String) (nv : Str) (o : Options) :
    ∃ t : List Change,
      (updatePackageJsonVersion pkgs path nv o).2.2
          = { o with changes := o.changes ++ t } ∧
        t.length ≤ 1 ∧ ∀ c ∈ t, c.platform = "Package.json" := by
  unfold updatePackageJsonVersion
  cases List.lookup path pkgs with
  | none => exact ⟨[], by simp, by simp, by simp⟩
  | some doc =>
    dsimp only
    cases List.lookup "version" doc.fields with
    | none => exact ⟨[], by simp, by simp, by simp⟩
    | some cur =>
      dsimp only
      by_cases hne : cur = []
      · rw [if_pos hne]
        exact ⟨[], by simp, by simp, by simp⟩
      · rw [if_neg hne]
        exact ⟨[⟨"Package.json", relPath o.projectRoot path, "version", cur, nv⟩],
          rfl, by simp, by simp⟩

theorem pkgRecords_append (a b : List Change) :
    pkgRecords (a ++ b) = pkgRecords a ++ pkgRecords b := by
  simp [pkgRecords, List.filter_append]

theorem processAndroidFile_ok_cases {fs : FS} {f : String} {vc vn : JSVal}
    {o : Options} {fs₁ : FS} {r : Option AndroidResult} {o₁ : Options}
    (h : processAndroidFile fs f vc vn o = .ok (fs₁, r, o₁)) :
    (fs₁ = fs ∧ r = none ∧ o₁ = o) ∨
    (∃ content cvc cvn newVN,
      List.lookup f fs.androidFiles = some content ∧
      firstVC content = some cvc ∧ firstVN content = some cvn ∧
      (if vn ≠ JSVal.null then calculateNewSemanticVersion vn cvn (effIncrement o)
        else .ok cvn) = .ok newVN ∧
      r = some ⟨f, calculateNewBuildNumber vc (.str cvc), newVN⟩ ∧
      fs₁ = (syncPackageJson
        (if o.dryRun then fs
          else { fs with androidFiles := (setKey f
            (updateAndroidFileContent content (calculateNewBuildNumber vc (.str cvc))
              newVN (vn ≠ JSVal.null)) fs.androidFiles) })
        (recordAndroidChanges f cvc (calculateNewBuildNumber vc (.str cvc)) cvn newVN
          (vn ≠ JSVal.null) o)
        newVN (vn ≠ JSVal.null)).1 ∧
      o₁ = (syncPackageJson
        (if o.dryRun then fs
          else { fs with androidFiles := (setKey f
            (updateAndroidFileContent content (calculateNewBuildNumber vc (.str cvc))
              newVN (vn ≠ JSVal.null)) fs.androidFiles) })
        (recordAndroidChanges f cvc (calculateNewBuildNumber vc (.str cvc)) cvn newVN
          (vn ≠ JSVal.null) o)
        newVN (vn ≠ JSVal.null)).2) := by
  unfold processAndroidFile at h
  cases hc : List.lookup f fs.androidFiles with
  | none =>
    rw [hc] at h
    simp only [Except.ok.injEq, Prod.mk.injEq] at h
    exact Or.inl ⟨h.1.symm, h.2.1.symm, h.2.2.symm⟩
  | some content =>
    rw [hc] at h
    dsimp only at h
    cases hvc : firstVC content with
    | none =>
      rw [hvc] at h
      cases hvn : firstVN content <;> rw [hvn] at h <;>
        simp only [Except.ok.injEq, Prod.mk.injEq] at h <;>
        exact Or.inl ⟨h.1.symm, h.2.1.symm, h.2.2.symm⟩
    | some cvc =>
      rw [hvc] at h
      cases hvn : firstVN content with
      | none =>
        rw [hvn] at h
        simp only [Except.ok.injEq, Prod.mk.injEq] at h
        exact Or.inl ⟨h.1.symm, h.2.1.symm, h.2.2.symm⟩
      | some cvn =>
        rw [hvn] at h
        dsimp only at h
        cases hsem : (if vn ≠ JSVal.null then
            calculateNewSemanticVersion vn cvn (effIncrement o)
          else .ok cvn) with
        | error e =>
          rw [hsem] at h
          exact absurd h (by simp)
        | ok newVN =>
          rw [hsem] at h
          simp only [Except.ok.injEq, Prod.mk.injEq] at h
          exact Or.inr ⟨content, cvc, cvn, newVN, rfl, hvc, hvn, hsem,
            h.2.1.symm, h.1.symm, h.2.2.symm⟩

theorem processIOSFile_ok_cases {fs : FS} {f : String} {cpv mv : JSVal}
    {o : Options} {fs₁ : FS} {r : Option IOSResult} {o₁ : Options}
    (h : processIOSFile fs f cpv mv o = .ok (fs₁, r, o₁)) :
    (fs₁ = fs ∧ r = none ∧ o₁ = o) ∨
    (∃ content cpv₀ cpvs mv₀ mvs newMV,
      List.lookup f fs.iosFiles = some content ∧
      allCPV content = cpv₀ :: cpvs ∧ allMV content = mv₀ :: mvs ∧
      (if mv ≠ JSVal.null then calculateNewSemanticVersion mv mv₀ (effIncrement o)
        else .ok mv₀) = .ok newMV ∧
      r = some ⟨f, (if cpv ≠ JSVal.null then calculateNewBuildNumber cpv (.str cpv₀)
        else jsParseInt (.str cpv₀)), newMV⟩ ∧
      fs₁ = (syncPackageJson
        (if o.dryRun then fs
          else { fs with iosFiles := (setKey f
            (updateIOSFileContent content
              (if cpv ≠ JSVal.null then calculateNewBuildNumber cpv (.str cpv₀)
                else jsParseInt (.str cpv₀))
              newMV (cpv ≠ JSVal.null) (mv ≠ JSVal.null)) fs.iosFiles) })
        (recordIOSChanges f cpv₀
          (if cpv ≠ JSVal.null then calculateNewBuildNumber cpv (.str cpv₀)
            else jsParseInt (.str cpv₀))
          mv₀ newMV (cpv ≠ JSVal.null) (mv ≠ JSVal.null) o)
        newMV (mv ≠ JSVal.null)).1 ∧
      o₁ = (syncPackageJson
        (if o.dryRun then fs
          else { fs with iosFiles := (setKey f
            (updateIOSFileContent content
              (if cpv ≠ JSVal.null then calculateNewBuildNumber cpv (.str cpv₀)
                else jsParseInt (.str cpv₀))
              newMV (cpv ≠ JSVal.null) (mv ≠ JSVal.null)) fs.iosFiles) })
        (recordIOSChanges f cpv₀
          (if cpv ≠ JSVal.null then calculateNewBuildNumber cpv (.str cpv₀)
            else jsParseInt (.str cpv₀))
          mv₀ newMV (cpv ≠ JSVal.null) (mv ≠ JSVal.null) o)
        newMV (mv ≠ JSVal.null)).2) := by
  unfold processIOSFile at h
  cases hc : List.lookup f fs.iosFiles with
  | none =>
    rw [hc] at h
    simp only [Except.ok.injEq, Prod.mk.injEq] at h
    exact Or.inl ⟨h.1.symm, h.2.1.symm, h.2.2.symm⟩
  | some content =>
    rw [hc] at h
    dsimp only at h
    cases hvc : allCPV content with
    | nil =>
      rw [hvc] at h
      cases hvn : allMV content <;> rw [hvn] at h <;>
        simp only [Except.ok.injEq, Prod.mk.injEq] at h <;>
        exact Or.inl ⟨h.1.symm, h.2.1.symm, h.2.2.symm⟩
    | cons cpv₀ cpvs =>
      rw [hvc] at h
      cases hvn : allMV content with
      | nil =>
        rw [hvn] at h
        simp only [Except.ok.injEq, Prod.mk.injEq] at h
        exact Or.inl ⟨h.1.symm, h.2.1.symm, h.2.2.symm⟩
      | cons mv₀ mvs =>
        rw [hvn] at h
        dsimp only at h
        cases hsem : (if mv ≠ JSVal.null then
            calculateNewSemanticVersion mv mv₀ (effIncrement o)
          else .ok mv₀) with
        | error e =>
          rw [hsem] at h
          exact absurd h (by simp)
        | ok newMV =>
          rw [hsem] at h
          simp only [Except.ok.injEq, Prod.mk.injEq] at h
          exact Or.inr ⟨content, cpv₀, cpvs, mv₀, mvs, newMV, rfl, hvc, hvn, hsem,
            h.2.1.symm, h.1.symm, h.2.2.symm⟩

theorem syncPackageJson_opts_shape (fs : FS) (o : Options) (nv : Str) (b : Bool) :
    (syncPackageJson fs o nv b).2 = o ∨
    (∃ t : List Change,
      (syncPackageJson fs o nv b).2
          = { o with packageJsonUpdated := true, changes := o.changes ++ t } ∧
        t.length ≤ 1 ∧ (∀ c ∈ t, c.platform = "Package.json") ∧
        o.packageJsonUpdated = false) := by
  unfold syncPackageJson
  cases hp : o.packageJsonPath with
  | none => exact Or.inl rfl
  | some p =>
    dsimp only
    by_cases hc : ¬o.packageJsonUpdated ∧ b
    · rw [if_pos hc]
      obtain ⟨t, ht, hlen, hplat⟩ :=
        updatePackageJsonVersion_opts_shape fs.packageFiles p nv o
      refine Or.inr ⟨t, ?_, hlen, hplat, by simpa using hc.1⟩
      dsimp only
      rw [ht]
      dsimp only
      rw [hp]
    · rw [if_neg hc]
      exact Or.inl rfl

theorem PkgInv_record (o : Options) (cs : List Change)
    (hplat : ∀ c ∈ cs, c.platform ≠ "Package.json") (hI : PkgInv o) :
    PkgInv { o with changes := o.changes ++ cs } := by
  have hcs : pkgRecords cs = [] := by
    unfold pkgRecords
    rw [List.filter_eq_nil]
    intro c hc
    simp [hplat c hc]
  have hp : pkgRecords (o.changes ++ cs) = pkgRecords o.changes := by
    rw [pkgRecords_append, hcs, List.append_nil]
  exact ⟨fun hg => by rw [show ({ o with changes := o.changes ++ cs} : Options).changes
      = o.changes ++ cs from rfl, hp]; exact hI.1 hg,
    by rw [show ({ o with changes := o.changes ++ cs} : Options).changes
      = o.changes ++ cs from rfl, hp]; exact hI.2⟩

theorem PkgInv_sync (fs : FS) (o : Options) (nv : Str) (b : Bool) (hI : PkgInv o) :
    PkgInv (syncPackageJson fs o nv b).2 := by
  rcases syncPackageJson_opts_shape fs o nv b with hs | ⟨t, hs, hlen, hplat, hguard⟩
  · rw [hs]
    exact hI
  · rw [hs]
    constructor
    · intro hg
      exact absurd hg (by simp)
    · show (pkgRecords (o.changes ++ t)).length ≤ 1
      rw [pkgRecords_append, hI.1 hguard]
      simp only [List.nil_append]
      calc (pkgRecords t).length ≤ t.length := List.length_filter_le _ _
        _ ≤ 1 := hlen

theorem androidRecords_not_pkg (f : String) (cvc : Str) (nvc : Option Int)
    (cvn nvn : Str) (u : Bool) (o : Options) :
    ∀ c ∈ (⟨"Android", relPath o.projectRoot f, "versionCode", cvc, numRender nvc⟩ ::
      if u then [⟨"Android", relPath o.projectRoot f, "versionName", cvn, nvn⟩]
      else ([] : List Change)), c.platform ≠ "Package.json" := by
  intro c hc
  have : c.platform = "Android" := by
    rcases List.mem_cons.mp hc with hc | hc
    · rw [hc]
    · cases u with
      | false => simp at hc
      | true =>
        rw [if_pos rfl] at hc
        rw [List.mem_singleton.mp hc]
  rw [this]
  decide

theorem iosRecords_not_pkg (f : String) (ccpv : Str) (ncpv : Option Int)
    (cmv nmv : Str) (u₁ u₂ : Bool) (o : Options) :
    ∀ c ∈ ((if u₁ then
        [⟨"iOS", relPath o.projectRoot f, "CURRENT_PROJECT_VERSION", ccpv,
          numRender ncpv⟩]
      else ([] : List Change)) ++
      if u₂ then [⟨"iOS", relPath o.projectRoot f, "MARKETING_VERSION", cmv, nmv⟩]
      else ([] : List Change)), c.platform ≠ "Package.json" := by
  intro c hc
  have : c.platform = "iOS" := by
    rcases List.mem_append.mp hc with hc | hc
    · cases u₁ with
      | false => simp at hc
      | true =>
        rw [if_pos rfl] at hc
        rw [List.mem_singleton.mp hc]
    · cases u₂ with
      | false => simp at hc
      | true =>
        rw [if_pos rfl] at hc
        rw [List.mem_singleton.mp hc]
  rw [this]
  decide

theorem processAndroidFile_PkgInv {fs : FS} {f : String} {vc vn : JSVal}
    {o : Options} {fs₁ : FS} {r : Option AndroidResult} {o₁ : Options}
    (hI : PkgInv o) (h : processAndroidFile fs f vc vn o = .ok (fs₁, r, o₁)) :
    PkgInv o₁ := by
  rcases processAndroidFile_ok_cases h with ⟨_, _, ho⟩ |
    ⟨content, cvc, cvn, newVN, _, _, _, _, _, _, ho⟩
  · rw [ho]
    exact hI
  · rw [ho]
    apply PkgInv_sync
    rw [recordAndroidChanges_eq]
    exact PkgInv_record o _ (androidRecords_not_pkg f cvc _ cvn newVN _ o) hI

theorem processIOSFile_PkgInv {fs : FS} {f : String} {cpv mv : JSVal}
    {o : Options} {fs₁ : FS} {r : Option IOSResult} {o₁ : Options}
    (hI : PkgInv o) (h : processIOSFile fs f cpv mv o = .ok (fs₁, r, o₁)) :
    PkgInv o₁ := by
  rcases processIOSFile_ok_cases h with ⟨_, _, ho⟩ |
    ⟨content, cpv₀, cpvs, mv₀, mvs, newMV, _, _, _, _, _, _, ho⟩
  · rw [ho]
    exact hI
  · rw [ho]
    apply PkgInv_sync
    rw [recordIOSChanges_eq]
    exact PkgInv_record o _ (iosRecords_not_pkg f cpv₀ _ mv₀ newMV _ _ o) hI

theorem processAndroidFile_guard {fs : FS} {f : String} {vc vn : JSVal}
    {o : Options} {fs₁ : FS} {r : Option AndroidResult} {o₁ : Options}
    (hg : o.packageJsonUpdated = true)
    (h : processAndroidFile fs f vc vn o = .ok (fs₁, r, o₁)) :
    o₁.packageJsonUpdated = true ∧ pkgRecords o₁.changes = pkgRecords o.changes := by
  rcases processAndroidFile_ok_cases h with ⟨_, _, ho⟩ |
    ⟨content, cvc, cvn, newVN, _, _, _, _, _, _, ho⟩
  · rw [ho]
    exact ⟨hg, rfl⟩
  · rw [ho, recordAndroidChanges_eq, syncPackageJson_guard_true _ _ _ _ (by simpa using hg)]
    refine ⟨by simpa using hg, ?_⟩
    show pkgRecords (o.changes ++ _) = pkgRecords o.changes
    rw [pkgRecords_append]
    have : pkgRecords (⟨"Android", relPath o.projectRoot f, "versionCode", cvc,
        numRender (calculateNewBuildNumber vc (.str cvc))⟩ ::
        if (vn ≠ JSVal.null : Bool) then
          [⟨"Android", relPath o.projectRoot f, "versionName", cvn, newVN⟩]
        else []) = [] := by
      unfold pkgRecords
      rw [List.filter_eq_nil]
      intro c hc
      simp [androidRecords_not_pkg f cvc _ cvn newVN _ o c hc]
    rw [this, List.append_nil]

theorem processIOSFile_guard {fs : FS} {f : String} {cpv mv : JSVal}
    {o : Options} {fs₁ : FS} {r : Option IOSResult} {o₁ : Options}
    (hg : o.packageJsonUpdated = true)
    (h : processIOSFile fs f cpv mv o = .ok (fs₁, r, o₁)) :
    o₁.packageJsonUpdated = true ∧ pkgRecords o₁.changes = pkgRecords o.changes := by
  rcases processIOSFile_ok_cases h with ⟨_, _, ho⟩ |
    ⟨content, cpv₀, cpvs, mv₀, mvs, newMV, _, _, _, _, _, _, ho⟩
  · rw [ho]
    exact ⟨hg, rfl⟩
  · rw [ho, recordIOSChanges_eq, syncPackageJson_guard_true _ _ _ _ (by simpa using hg)]
    refine ⟨by simpa using hg, ?_⟩
    show pkgRecords (o.changes ++ _) = pkgRecords o.changes
    rw [pkgRecords_append]
    have hnil : ∀ (ncpv : Option Int) (nmv : Str) (u₁ u₂ : Bool),
        pkgRecords ((if u₁ then
            [⟨"iOS", relPath o.projectRoot f, "CURRENT_PROJECT_VERSION", cpv₀,
              numRender ncpv⟩]
          else []) ++
          if u₂ then [⟨"iOS", relPath o.projectRoot f, "MARKETING_VERSION", mv₀, nmv⟩]
          else []) = [] := by
      intro ncpv nmv u₁ u₂
      unfold pkgRecords
      rw [List.filter_eq_nil]
      intro c hc
      simp [iosRecords_not_pkg f cpv₀ ncpv mv₀ nmv u₁ u₂ o c hc]
    rw [hnil, List.append_nil]

theorem updateAndroidVersions_guard {vc vn : JSVal} :
    ∀ (files : List String) (fs : FS) (o : Options)
      (t : FS × List AndroidResult × Options),
    o.packageJsonUpdated = true →
    updateAndroidVersions fs files vc vn o = .ok t →
    t.2.2.packageJsonUpdated = true ∧ pkgRecords t.2.2.changes = pkgRecords o.changes := by
  intro files
  induction files with
  | nil =>
    intro fs o t hg h
    rw [updateAndroidVersions] at h
    cases h
    exact ⟨hg, rfl⟩
  | cons f rest ih =>
    intro fs o t hg h
    rw [updateAndroidVersions] at h
    cases hp : processAndroidFile fs f vc vn o with
    | error e =>
      rw [hp] at h
      exact absurd h (by simp)
    | ok s =>
      rcases s with ⟨fs₁, r, o₁⟩
      rw [hp] at h
      dsimp only at h
      cases hrest : updateAndroidVersions fs₁ rest vc vn o₁ with
      | error e =>
        rw [hrest] at h
        exact absurd h (by simp)
      | ok t₂ =>
        rw [hrest] at h
        rcases t₂ with ⟨fs₂, rs, o₂⟩
        dsimp only at h
        cases h
        have h₁ := processAndroidFile_guard hg hp
        have h₂ := ih fs₁ o₁ (fs₂, rs, o₂) h₁.1 hrest
        exact ⟨h₂.1, h₂.2.trans h₁.2⟩

theorem updateIOSVersions_guard {cpv mv : JSVal} :
    ∀ (files : List String) (fs : FS) (o : Options)
      (t : FS × List IOSResult × Options),
    o.packageJsonUpdated = true →
    updateIOSVersions fs files cpv mv o = .ok t →
    t.2.2.packageJsonUpdated = true ∧ pkgRecords t.2.2.changes = pkgRecords o.changes := by
  intro files
  induction files with
  | nil =>
    intro fs o t hg h
    rw [updateIOSVersions] at h
    cases h
    exact ⟨hg, rfl⟩
  | cons f rest ih =>
    intro fs o t hg h
    rw [updateIOSVersions] at h
    cases hp : processIOSFile fs f cpv mv o with
    | error e =>
      rw [hp] at h
      exact absurd h (by simp)
    | ok s =>
      rcases s with ⟨fs₁, r, o₁⟩
      rw [hp] at h
      dsimp only at h
      cases hrest : updateIOSVersions fs₁ rest cpv mv o₁ with
      | error e =>
        rw [hrest] at h
        exact absurd h (by simp)
      | ok t₂ =>
        rw [hrest] at h
        rcases t₂ with ⟨fs₂, rs, o₂⟩
        dsimp only at h
        cases h
        have h₁ := processIOSFile_guard hg hp
        have h₂ := ih fs₁ o₁ (fs₂, rs, o₂) h₁.1 hrest
        exact ⟨h₂.1, h₂.2.trans h₁.2⟩

theorem processAndroidFile_first_sync {fs : FS} {f : String} {vc vn : JSVal}
    {o : Options} {fs₁ : FS} {rr : AndroidResult} {o₁ : Options} {p : String}
    {doc : PkgDoc} {cur : Str}
    (hguard : o.packageJsonUpdated = false)
    (hpath : o.packageJsonPath = some p)
    (hvn : vn ≠ JSVal.null)
    (hdoc : List.lookup p fs.packageFiles = some doc)
    (hver : List.lookup "version" doc.fields = some cur)
    (hcur : cur ≠ [])
    (h : processAndroidFile fs f vc vn o = .ok (fs₁, some rr, o₁)) :
    o₁.packageJsonUpdated = true ∧
      pkgRecords o₁.changes = pkgRecords o.changes ++
        [⟨"Package.json", relPath o.projectRoot p, "version", cur, rr.versionName⟩] := by
  rcases processAndroidFile_ok_cases h with ⟨_, hr, _⟩ |
    ⟨content, cvc, cvn, newVN, hc, hvc, hvn', hsem, hr, hfs, ho⟩
  · exact absurd hr (by simp)
  · have hrr : rr = ⟨f, calculateNewBuildNumber vc (.str cvc), newVN⟩ :=
      Option.some.inj hr
    rw [ho, recordAndroidChanges_eq]
    unfold syncPackageJson
    dsimp only
    rw [hpath]
    dsimp only
    rw [if_pos ⟨by simp [hguard], by simp [hvn]⟩]
    dsimp only
    have hpf : (if o.dryRun then fs
        else { fs with androidFiles := (setKey f
          (updateAndroidFileContent content (calculateNewBuildNumber vc (.str cvc))
            newVN (vn ≠ JSVal.null)) fs.androidFiles) }).packageFiles
        = fs.packageFiles := by
      by_cases hd : o.dryRun
      · rw [if_pos hd]
      · rw [if_neg hd]
    rw [hpf, updatePackageJsonVersion_success_eq hdoc hver hcur]
    dsimp only
    constructor
    · rfl
    · show pkgRecords ((o.changes ++ _) ++ _) = _
      rw [pkgRecords_append, pkgRecords_append]
      have hnil : ∀ (nvc : Option Int) (nvn : Str) (u : Bool),
          pkgRecords (⟨"Android", relPath o.projectRoot f, "versionCode", cvc,
            numRender nvc⟩ ::
            if u then [⟨"Android", relPath o.projectRoot f, "versionName", cvn, nvn⟩]
            else []) = [] := by
        intro nvc nvn u
        unfold pkgRecords
        rw [List.filter_eq_nil]
        intro c hc'
        simp [androidRecords_not_pkg f cvc nvc cvn nvn u o c hc']
      rw [hnil, List.append_nil]
      have hone : pkgRecords [⟨"Package.json", relPath o.projectRoot p, "version",
          cur, newVN⟩] = [⟨"Package.json", relPath o.projectRoot p, "version",
          cur, newVN⟩] := by
        unfold pkgRecords
        rfl
      rw [hone, hrr]

/-- C4: with a configured shared package-manifest path and the semantic
version enabled, a full Android-then-iOS invocation updates the shared
manifest exactly once: the final change log carries exactly one
`Package.json` record, whose new value is the version computed for the
first platform file processed, and the one-shot guard is set; moreover for
any invocation whatsoever started with the guard unset and a clean log, at
most one `Package.json` record is ever produced. -/
theorem C4_shared_manifest_single_update
    (fs : FS) (aFiles iFiles : List String) (vc vn icpv imv : JSVal)
    (o : Options) (p f₁ : String) (rest : List String)
    (fs' fs₁ : FS) (ars : List AndroidResult) (irs : List IOSResult)
    (o' o₁ : Options) (rr : AndroidResult) (doc : PkgDoc) (cur : Str)
    (hfiles : aFiles = f₁ :: rest)
    (hguard : o.packageJsonUpdated = false)
    (hpath : o.packageJsonPath = some p)
    (hclean : pkgRecords o.changes = [])
    (hvn : vn ≠ JSVal.null)
    (hdoc : List.lookup p fs.packageFiles = some doc)
    (hver : List.lookup "version" doc.fields = some cur)
    (hcur : cur ≠ [])
    (hfirst : processAndroidFile fs f₁ vc vn o = .ok (fs₁, some rr, o₁))
    (hrun : runAndroidThenIOS fs aFiles iFiles vc vn icpv imv o
      = .ok (fs', ars, irs, o')) :
    o'.packageJsonUpdated = true ∧
      pkgRecords o'.changes =
        [⟨"Package.json", relPath o.projectRoot p, "version", cur, rr.versionName⟩] ∧
      (pkgRecords o'.changes).length = 1 := by
  subst hfiles
  unfold runAndroidThenIOS at hrun
  cases ha : updateAndroidVersions fs (f₁ :: rest) vc vn o with
  | error e =>
    rw [ha] at hrun
    exact absurd hrun (by simp)
  | ok ta =>
    rw [ha] at hrun
    rcases ta with ⟨fsA, arsA, oA⟩
    dsimp only at hrun
    cases hi : updateIOSVersions fsA iFiles icpv imv oA with
    | error e =>
      rw [hi] at hrun
      exact absurd hrun (by simp)
    | ok ti =>
      rw [hi] at hrun
      rcases ti with ⟨fsI, irsI, oI⟩
      dsimp only at hrun
      simp only [Except.ok.injEq, Prod.mk.injEq] at hrun
      obtain ⟨h1, h2, h3, h4⟩ := hrun
      have hfirstSync := processAndroidFile_first_sync hguard hpath hvn hdoc hver
        hcur hfirst
      rw [hclean, List.nil_append] at hfirstSync
      rw [updateAndroidVersions] at ha
      rw [hfirst] at ha
      dsimp only at ha
      cases hrest : updateAndroidVersions fs₁ rest vc vn o₁ with
      | error e =>
        rw [hrest] at ha
        exact absurd ha (by simp)
      | ok t₂ =>
        rw [hrest] at ha
        rcases t₂ with ⟨fs₂, rs₂, o₂⟩
        dsimp only at ha
        simp only [Except.ok.injEq, Prod.mk.injEq] at ha
        obtain ⟨hfsA, harsA, hoA⟩ := ha
        have hA := updateAndroidVersions_guard rest fs₁ o₁ (fs₂, rs₂, o₂)
          hfirstSync.1 hrest
        have hgA : oA.packageJsonUpdated = true := by
          rw [← hoA]
          exact hA.1
        have hI := updateIOSVersions_guard iFiles fsA oA (fsI, irsI, oI) hgA hi
        have hrec : pkgRecords oI.changes =
            [⟨"Package.json", relPath o.projectRoot p, "version", cur,
              rr.versionName⟩] := by
          rw [hI.2, ← hoA, hA.2, hfirstSync.2]
        refine ⟨?_, ?_, ?_⟩
        · rw [← h4]
          exact hI.1
        · rw [← h4]
          exact hrec
        · rw [← h4, hrec]
          rfl

theorem C4_shared_manifest_single_update_witness :
    (pkgRecords ((⟨false, "root", some "patch".toList, some "package.json", true,
      [⟨"Android", "a", "versionCode", ['1'], ['2']⟩,
        ⟨"Android", "a", "versionName", "1.0.0".toList, "1.0.1".toList⟩,
        ⟨"Package.json", "package.json", "version", "1.0.0".toList, "1.0.1".toList⟩,
        ⟨"iOS", "i", "CURRENT_PROJECT_VERSION", ['1'], ['2']⟩,
        ⟨"iOS", "i", "MARKETING_VERSION", "1.0.0".toList, "1.0.1".toList⟩]⟩ :
      Options).changes)).length = 1 :=
  (C4_shared_manifest_single_update
    ⟨[("a", [.vc ['1'], .vn "1.0.0".toList])],
      [("i", [.cpv ['1'], .mv "1.0.0".toList])],
      [("package.json", ⟨[("version", "1.0.0".toList)], 2, true⟩)]⟩
    ["a"] ["i"] (.bool true) (.bool true) (.bool true) (.bool true)
    ⟨false, "root", some "patch".toList, some "package.json", false, []⟩
    "package.json" "a" []
    ⟨[("a", [.vc ['2'], .vn "1.0.1".toList])],
      [("i", [.cpv ['2'], .mv "1.0.1".toList])],
      [("package.json", ⟨[("version", "1.0.1".toList)], 2, true⟩)]⟩
    ⟨[("a", [.vc ['2'], .vn "1.0.1".toList])],
      [("i", [.cpv ['1'], .mv "1.0.0".toList])],
      [("package.json", ⟨[("version", "1.0.1".toList)], 2, true⟩)]⟩
    [⟨"a", some 2, "1.0.1".toList⟩]
    [⟨"i", some 2, "1.0.1".toList⟩]
    ⟨false, "root", some "patch".toList, some "package.json", true,
      [⟨"Android", "a", "versionCode", ['1'], ['2']⟩,
        ⟨"Android", "a", "versionName", "1.0.0".toList, "1.0.1".toList⟩,
        ⟨"Package.json", "package.json", "version", "1.0.0".toList, "1.0.1".toList⟩,
        ⟨"iOS", "i", "CURRENT_PROJECT_VERSION", ['1'], ['2']⟩,
        ⟨"iOS", "i", "MARKETING_VERSION", "1.0.0".toList, "1.0.1".toList⟩]⟩
    ⟨false, "root", some "patch".toList, some "package.json", true,
      [⟨"Android", "a", "versionCode", ['1'], ['2']⟩,
        ⟨"Android", "a", "versionName", "1.0.0".toList, "1.0.1".toList⟩,
        ⟨"Package.json", "package.json", "version", "1.0.0".toList, "1.0.1".toList⟩]⟩
    ⟨"a", some 2, "1.0.1".toList⟩
    ⟨[("version", "1.0.0".toList)], 2, true⟩
    "1.0.0".toList
    rfl rfl rfl rfl (by decide) rfl rfl (by decide) (by rfl) (by rfl)).2.2

/-! ## Dry-run and simulation lemmas -/

theorem updatePackageJsonVersion_dry_fst (pkgs : List (String × PkgDoc))
    (p : String) (nv : Str) (o : Options) (hd : o.dryRun = true) :
    (updatePackageJsonVersion pkgs p nv o).1 = pkgs := by
  unfold updatePackageJsonVersion
  cases List.lookup p pkgs with
  | none => rfl
  | some doc =>
    dsimp only
    cases List.lookup "version" doc.fields with
    | none => rfl
    | some cur =>
      dsimp only
      by_cases hne : cur = []
      · rw [if_pos hne]
      · rw [if_neg hne]
        dsimp only
        rw [if_pos hd]

theorem syncPackageJson_dry_fst (fs : FS) (o : Options) (nv : Str) (b : Bool)
    (hd : o.dryRun = true) : (syncPackageJson fs o nv b).1 = fs := by
  unfold syncPackageJson
  cases o.packageJsonPath with
  | none => rfl
  | some p =>
    dsimp only
    by_cases hc : ¬o.packageJsonUpdated ∧ b
    · rw [if_pos hc]
      dsimp only
      rw [updatePackageJsonVersion_dry_fst fs.packageFiles p nv o hd]
    · rw [if_neg hc]

theorem syncPackageJson_not_updated (fs : FS) (o : Options) (nv : Str) (b : Bool)
    (h : (syncPackageJson fs o nv b).2.packageJsonUpdated = false) :
    (syncPackageJson fs o nv b).1 = fs := by
  revert h
  unfold syncPackageJson
  cases o.packageJsonPath with
  | none => intro _; rfl
  | some p =>
    dsimp only
    by_cases hc : ¬o.packageJsonUpdated ∧ b
    · rw [if_pos hc]
      intro h
      exact absurd h (by simp)
    · rw [if_neg hc]
      intro _
      rfl

theorem updatePackageJsonVersion_sig_sim {pkgs₁ pkgs₂ : List (String × PkgDoc)}
    {p : String} {nv : Str} {o₁ o₂ : Options}
    (hp : List.lookup p pkgs₁ = List.lookup p pkgs₂)
    (hsig : optsSig o₁ = optsSig o₂) :
    optsSig (updatePackageJsonVersion pkgs₁ p nv o₁).2.2
      = optsSig (updatePackageJsonVersion pkgs₂ p nv o₂).2.2 := by
  simp only [optsSig, Prod.mk.injEq] at hsig
  obtain ⟨hroot, hinc, hpath, hupd, hch⟩ := hsig
  unfold updatePackageJsonVersion
  rw [hp]
  cases List.lookup p pkgs₂ with
  | none => simp [optsSig, hroot, hinc, hpath, hupd, hch]
  | some doc =>
    dsimp only
    cases List.lookup "version" doc.fields with
    | none => simp [optsSig, hroot, hinc, hpath, hupd, hch]
    | some cur =>
      dsimp only
      by_cases hne : cur = []
      · rw [if_pos hne, if_pos hne]
        simp [optsSig, hroot, hinc, hpath, hupd, hch]
      · rw [if_neg hne, if_neg hne]
        simp [optsSig, hroot, hinc, hpath, hupd, hch]

theorem syncPackageJson_sig_sim {fs₁ fs₂ : FS} {o₁ o₂ : Options} {nv : Str} {b : Bool}
    (hsig : optsSig o₁ = optsSig o₂)
    (hpkg : o₁.packageJsonUpdated = false → ∀ p, o₁.packageJsonPath = some p →
      List.lookup p fs₁.packageFiles = List.lookup p fs₂.packageFiles) :
    optsSig (syncPackageJson fs₁ o₁ nv b).2 = optsSig (syncPackageJson fs₂ o₂ nv b).2 := by
  have hsig' := hsig
  simp only [optsSig, Prod.mk.injEq] at hsig'
  obtain ⟨hroot, hinc, hpath, hupd, hch⟩ := hsig'
  unfold syncPackageJson
  cases hp₁ : o₁.packageJsonPath with
  | none =>
    rw [hpath] at hp₁
    rw [hp₁]
    exact hsig
  | some p =>
    rw [hpath] at hp₁
    rw [hp₁]
    dsimp only
    by_cases hc : ¬o₁.packageJsonUpdated ∧ b
    · rw [if_pos hc, if_pos (by rw [← hupd]; exact hc)]
      dsimp only
      have hpk := hpkg (by simpa using hc.1) p (by rw [hpath]; exact hp₁)
      have hu := @updatePackageJsonVersion_sig_sim _ _ p nv _ _ hpk hsig
      simp only [optsSig, Prod.mk.injEq] at hu ⊢
      exact ⟨hu.1, hu.2.1, hu.2.2.1, trivial, hu.2.2.2.2⟩
    · rw [if_neg hc, if_neg (by rw [← hupd]; exact hc)]
      exact hsig

theorem syncPackageJson_snd_fields (fs : FS) (o : Options) (nv : Str) (b : Bool) :
    (syncPackageJson fs o nv b).2.dryRun = o.dryRun ∧
    (syncPackageJson fs o nv b).2.projectRoot = o.projectRoot ∧
    (syncPackageJson fs o nv b).2.increment = o.increment ∧
    (syncPackageJson fs o nv b).2.packageJsonPath = o.packageJsonPath ∧
    (o.packageJsonUpdated = true → (syncPackageJson fs o nv b).2.packageJsonUpdated = true) := by
  rcases syncPackageJson_opts_shape fs o nv b with hs | ⟨t, hs, _, _, _⟩ <;> rw [hs] <;> simp

theorem processAndroidFile_state {fs : FS} {f : String} {vc vn : JSVal}
    {o : Options} {fs' : FS} {r : Option AndroidResult} {o' : Options}
    (h : processAndroidFile fs f vc vn o = .ok (fs', r, o')) :
    o'.dryRun = o.dryRun ∧ o'.projectRoot = o.projectRoot ∧
    o'.increment = o.increment ∧ o'.packageJsonPath = o.packageJsonPath ∧
    (o.packageJsonUpdated = true → o'.packageJsonUpdated = true) ∧
    (∀ g, g ≠ f → List.lookup g fs'.androidFiles = List.lookup g fs.androidFiles) ∧
    fs'.iosFiles = fs.iosFiles ∧
    (o'.packageJsonUpdated = false → fs'.packageFiles = fs.packageFiles) ∧
    (o.dryRun = true → fs' = fs) := by
  rcases processAndroidFile_ok_cases h with ⟨h1, _, h3⟩ |
    ⟨content, cvc, cvn, newVN, hc, _, _, _, _, hfs, ho⟩
  · subst h1
    subst h3
    exact ⟨rfl, rfl, rfl, rfl, fun h => h, fun _ _ => rfl, rfl, fun _ => rfl, fun _ => rfl⟩
  · subst hfs
    subst ho
    rw [recordAndroidChanges_eq]
    refine ⟨(syncPackageJson_snd_fields _ _ _ _).1,
      (syncPackageJson_snd_fields _ _ _ _).2.1,
      (syncPackageJson_snd_fields _ _ _ _).2.2.1,
      (syncPackageJson_snd_fields _ _ _ _).2.2.2.1,
      fun hu => (syncPackageJson_snd_fields _ _ _ _).2.2.2.2 hu,
      fun g hg => ?_, ?_, fun hu => ?_, fun hd => ?_⟩
    · rw [syncPackageJson_androidFiles]
      by_cases hd : o.dryRun
      · rw [if_pos hd]
      · rw [if_neg hd]
        dsimp only
        exact lookup_setKey_ne _ _ _ _ hg
    · rw [syncPackageJson_iosFiles]
      by_cases hd : o.dryRun
      · rw [if_pos hd]
      · rw [if_neg hd]
    · rw [syncPackageJson_not_updated _ _ _ _ hu]
      by_cases hd : o.dryRun
      · rw [if_pos hd]
      · rw [if_neg hd]
    · rw [if_pos hd]
      exact syncPackageJson_dry_fst fs _ _ _ (by simpa using hd)

theorem processIOSFile_state {fs : FS} {f : String} {cpv mv : JSVal}
    {o : Options} {fs' : FS} {r : Option IOSResult} {o' : Options}
    (h : processIOSFile fs f cpv mv o = .ok (fs', r, o')) :
    o'.dryRun = o.dryRun ∧ o'.projectRoot = o.projectRoot ∧
    o'.increment = o.increment ∧ o'.packageJsonPath = o.packageJsonPath ∧
    (o.packageJsonUpdated = true → o'.packageJsonUpdated = true) ∧
    (∀ g, g ≠ f → List.lookup g fs'.iosFiles = List.lookup g fs.iosFiles) ∧
    fs'.androidFiles = fs.androidFiles ∧
    (o'.packageJsonUpdated = false → fs'.packageFiles = fs.packageFiles) ∧
    (o.dryRun = true → fs' = fs) := by
  rcases processIOSFile_ok_cases h with ⟨h1, _, h3⟩ |
    ⟨content, cpv₀, cpvs, mv₀, mvs, newMV, hc, _, _, _, _, hfs, ho⟩
  · subst h1
    subst h3
    exact ⟨rfl, rfl, rfl, rfl, fun h => h, fun _ _ => rfl, rfl, fun _ => rfl, fun _ => rfl⟩
  · subst hfs
    subst ho
    rw [recordIOSChanges_eq]
    refine ⟨(syncPackageJson_snd_fields _ _ _ _).1,
      (syncPackageJson_snd_fields _ _ _ _).2.1,
      (syncPackageJson_snd_fields _ _ _ _).2.2.1,
      (syncPackageJson_snd_fields _ _ _ _).2.2.2.1,
      fun hu => (syncPackageJson_snd_fields _ _ _ _).2.2.2.2 hu,
      fun g hg => ?_, ?_, fun hu => ?_, fun hd => ?_⟩
    · rw [syncPackageJson_iosFiles]
      by_cases hd : o.dryRun
      · rw [if_pos hd]
      · rw [if_neg hd]
        dsimp only
        exact lookup_setKey_ne _ _ _ _ hg
    · rw [syncPackageJson_androidFiles]
      by_cases hd : o.dryRun
      · rw [if_pos hd]
      · rw [if_neg hd]
    · rw [syncPackageJson_not_updated _ _ _ _ hu]
      by_cases hd : o.dryRun
      · rw [if_pos hd]
      · rw [if_neg hd]
    · rw [if_pos hd]
      exact syncPackageJson_dry_fst fs _ _ _ (by simpa using hd)

theorem processAndroidFile_sim {fs₁ fs₂ : FS} {f : String} {vc vn : JSVal}
    {o₁ o₂ : Options}
    (hsig : optsSig o₁ = optsSig o₂)
    (hfile : List.lookup f fs₁.androidFiles = List.lookup f fs₂.androidFiles)
    (hpkg : o₁.packageJsonUpdated = false → ∀ p, o₁.packageJsonPath = some p →
      List.lookup p fs₁.packageFiles = List.lookup p fs₂.packageFiles) :
    Except.map (fun t => (t.2.1, optsSig t.2.2)) (processAndroidFile fs₁ f vc vn o₁)
      = Except.map (fun t => (t.2.1, optsSig t.2.2)) (processAndroidFile fs₂ f vc vn o₂) := by
  have hs := hsig
  simp only [optsSig, Prod.mk.injEq] at hs
  obtain ⟨hroot, hinc, hpath, hupd, hch⟩ := hs
  unfold processAndroidFile
  rw [hfile]
  cases hc : List.lookup f fs₂.androidFiles with
  | none => simp [Except.map, hsig]
  | some content =>
    dsimp only
    cases hvc : firstVC content with
    | none => cases hvn0 : firstVN content <;> simp [Except.map, hsig]
    | some cvc =>
      cases hvn0 : firstVN content with
      | none => simp [Except.map, hsig]
      | some cvn =>
        dsimp only
        have heff : effIncrement o₁ = effIncrement o₂ := by
          unfold effIncrement
          rw [hinc]
        rw [heff]
        cases hsem : (if vn ≠ JSVal.null then
            calculateNewSemanticVersion vn cvn (effIncrement o₂) else .ok cvn) with
        | error e => rfl
        | ok newVN =>
          dsimp only [Except.map]
          congr 1
          congr 1
          refine syncPackageJson_sig_sim ?_ ?_
          · rw [recordAndroidChanges_eq, recordAndroidChanges_eq]
            simp [optsSig, hroot, hinc, hpath, hupd, hch]
          · intro hu p hp
            rw [recordAndroidChanges_eq] at hu hp
            dsimp only at hu hp
            have h₁ : (if o₁.dryRun then fs₁
                else { fs₁ with androidFiles := (setKey f
                  (updateAndroidFileContent content
                    (calculateNewBuildNumber vc (.str cvc)) newVN (vn ≠ JSVal.null))
                  fs₁.androidFiles) }).packageFiles = fs₁.packageFiles := by
              by_cases hd : o₁.dryRun
              · rw [if_pos hd]
              · rw [if_neg hd]
            have h₂ : (if o₂.dryRun then fs₂
                else { fs₂ with androidFiles := (setKey f
                  (updateAndroidFileContent content
                    (calculateNewBuildNumber vc (.str cvc)) newVN (vn ≠ JSVal.null))
                  fs₂.androidFiles) }).packageFiles = fs₂.packageFiles := by
              by_cases hd : o₂.dryRun
              · rw [if_pos hd]
              · rw [if_neg hd]
            rw [h₁, h₂]
            exact hpkg hu p hp

theorem processIOSFile_sim {fs₁ fs₂ : FS} {f : String} {cpv mv : JSVal}
    {o₁ o₂ : Options}
    (hsig : optsSig o₁ = optsSig o₂)
    (hfile : List.lookup f fs₁.iosFiles = List.lookup f fs₂.iosFiles)
    (hpkg : o₁.packageJsonUpdated = false → ∀ p, o₁.packageJsonPath = some p →
      List.lookup p fs₁.packageFiles = List.lookup p fs₂.packageFiles) :
    Except.map (fun t => (t.2.1, optsSig t.2.2)) (processIOSFile fs₁ f cpv mv o₁)
      = Except.map (fun t => (t.2.1, optsSig t.2.2)) (processIOSFile fs₂ f cpv mv o₂) := by
  have hs := hsig
  simp only [optsSig, Prod.mk.injEq] at hs
  obtain ⟨hroot, hinc, hpath, hupd, hch⟩ := hs
  unfold processIOSFile
  rw [hfile]
  cases hc : List.lookup f fs₂.iosFiles with
  | none => simp [Except.map, hsig]
  | some content =>
    dsimp only
    cases hvc : allCPV content with
    | nil => cases hvn0 : allMV content <;> simp [Except.map, hsig]
    | cons cpv₀ cpvs =>
      cases hvn0 : allMV content with
      | nil => simp [Except.map, hsig]
      | cons mv₀ mvs =>
        dsimp only
        have heff : effIncrement o₁ = effIncrement o₂ := by
          unfold effIncrement
          rw [hinc]
        rw [heff]
        cases hsem : (if mv ≠ JSVal.null then
            calculateNewSemanticVersion mv mv₀ (effIncrement o₂) else .ok mv₀) with
        | error e => rfl
        | ok newMV =>
          dsimp only [Except.map]
          congr 1
          congr 1
          refine syncPackageJson_sig_sim ?_ ?_
          · rw [recordIOSChanges_eq, recordIOSChanges_eq]
            simp [optsSig, hroot, hinc, hpath, hupd, hch]
          · intro hu p hp
            rw [recordIOSChanges_eq] at hu hp
            dsimp only at hu hp
            have h₁ : (if o₁.dryRun then fs₁
                else { fs₁ with iosFiles := (setKey f
                  (updateIOSFileContent content
                    (if cpv ≠ JSVal.null then calculateNewBuildNumber cpv (.str cpv₀)
                      else jsParseInt (.str cpv₀))
                    newMV (cpv ≠ JSVal.null) (mv ≠ JSVal.null))
                  fs₁.iosFiles) }).packageFiles = fs₁.packageFiles := by
              by_cases hd : o₁.dryRun
              · rw [if_pos hd]
              · rw [if_neg hd]
            have h₂ : (if o₂.dryRun then fs₂
                else { fs₂ with iosFiles := (setKey f
                  (updateIOSFileContent content
                    (if cpv ≠ JSVal.null then calculateNewBuildNumber cpv (.str cpv₀)
                      else jsParseInt (.str cpv₀))
                    newMV (cpv ≠ JSVal.null) (mv ≠ JSVal.null))
                  fs₂.iosFiles) }).packageFiles = fs₂.packageFiles := by
              by_cases hd : o₂.dryRun
              · rw [if_pos hd]
              · rw [if_neg hd]
            rw [h₁, h₂]
            exact hpkg hu p hp

theorem updateAndroidVersions_sim {vc vn : JSVal} :
    ∀ (files : List String) (fs₁ fs₂ : FS) (o₁ o₂ : Options),
    files.Nodup →
    optsSig o₁ = optsSig o₂ →
    (∀ g ∈ files, List.lookup g fs₁.androidFiles = List.lookup g fs₂.androidFiles) →
    (o₁.packageJsonUpdated = false → ∀ p, o₁.packageJsonPath = some p →
      List.lookup p fs₁.packageFiles = List.lookup p fs₂.packageFiles) →
    Except.map (fun t => (t.2.1, optsSig t.2.2)) (updateAndroidVersions fs₁ files vc vn o₁)
      = Except.map (fun t => (t.2.1, optsSig t.2.2))
          (updateAndroidVersions fs₂ files vc vn o₂) := by
  intro files
  induction files with
  | nil =>
    intro fs₁ fs₂ o₁ o₂ _ hsig _ _
    simp [updateAndroidVersions, Except.map, hsig]
  | cons f rest ih =>
    intro fs₁ fs₂ o₁ o₂ hnd hsig hfiles hpkg
    have hstep := @processAndroidFile_sim _ _ f vc vn _ _ hsig
      (hfiles f (List.mem_cons_self f rest)) hpkg
    rw [updateAndroidVersions, updateAndroidVersions]
    cases hp₁ : processAndroidFile fs₁ f vc vn o₁ with
    | error e =>
      cases hp₂ : processAndroidFile fs₂ f vc vn o₂ with
      | error e₂ =>
        rw [hp₁, hp₂] at hstep
        simp only [Except.map, Except.error.injEq] at hstep
        dsimp only
        rw [hstep]
      | ok t₂ =>
        rw [hp₁, hp₂] at hstep
        simp [Except.map] at hstep
    | ok t₁ =>
      cases hp₂ : processAndroidFile fs₂ f vc vn o₂ with
      | error e₂ =>
        rw [hp₁, hp₂] at hstep
        simp [Except.map] at hstep
      | ok t₂ =>
        rw [hp₁, hp₂] at hstep
        rcases t₁ with ⟨fs₁', r₁, o₁'⟩
        rcases t₂ with ⟨fs₂', r₂, o₂'⟩
        simp only [Except.map, Except.ok.injEq, Prod.mk.injEq] at hstep
        obtain ⟨hr, hsig'⟩ := hstep
        have hst₁ := processAndroidFile_state hp₁
        have hst₂ := processAndroidFile_state hp₂
        have hsigc := hsig'
        simp only [optsSig, Prod.mk.injEq] at hsigc
        have hrest := ih fs₁' fs₂' o₁' o₂' (List.Nodup.of_cons hnd) hsig'
          (by
            intro g hg
            have hgf : g ≠ f := by
              intro hgf
              subst hgf
              exact (List.nodup_cons.mp hnd).1 hg
            rw [hst₁.2.2.2.2.2.1 g hgf, hst₂.2.2.2.2.2.1 g hgf]
            exact hfiles g (List.mem_cons_of_mem f hg))
          (by
            intro hu p hpp
            have hu₁ : o₁.packageJsonUpdated = false := by
              cases hb : o₁.packageJsonUpdated with
              | false => rfl
              | true => exact absurd (hst₁.2.2.2.2.1 hb) (by rw [hu]; simp)
            have hu₂ : o₂'.packageJsonUpdated = false := by
              rw [← hsigc.2.2.2.1]
              exact hu
            rw [hst₁.2.2.2.2.2.2.2.1 hu, hst₂.2.2.2.2.2.2.2.1 hu₂]
            exact hpkg hu₁ p (by rw [← hst₁.2.2.2.1]; exact hpp))
        dsimp only
        cases hrec₁ : updateAndroidVersions fs₁' rest vc vn o₁' with
        | error e =>
          cases hrec₂ : updateAndroidVersions fs₂' rest vc vn o₂' with
          | error e₂ =>
            rw [hrec₁, hrec₂] at hrest
            simp only [Except.map, Except.error.injEq] at hrest
            rw [hrest]
          | ok u₂ =>
            rw [hrec₁, hrec₂] at hrest
            simp [Except.map] at hrest
        | ok u₁ =>
          cases hrec₂ : updateAndroidVersions fs₂' rest vc vn o₂' with
          | error e₂ =>
            rw [hrec₁, hrec₂] at hrest
            simp [Except.map] at hrest
          | ok u₂ =>
            rw [hrec₁, hrec₂] at hrest
            rcases u₁ with ⟨fsu₁, rs₁, ou₁⟩
            rcases u₂ with ⟨fsu₂, rs₂, ou₂⟩
            simp only [Except.map, Except.ok.injEq, Prod.mk.injEq] at hrest ⊢
            exact ⟨by rw [hr, hrest.1], hrest.2⟩

theorem updateIOSVersions_sim {cpv mv : JSVal} :
    ∀ (files : List String) (fs₁ fs₂ : FS) (o₁ o₂ : Options),
    files.Nodup →
    optsSig o₁ = optsSig o₂ →
    (∀ g ∈ files, List.lookup g fs₁.iosFiles = List.lookup g fs₂.iosFiles) →
    (o₁.packageJsonUpdated = false → ∀ p, o₁.packageJsonPath = some p →
      List.lookup p fs₁.packageFiles = List.lookup p fs₂.packageFiles) →
    Except.map (fun t => (t.2.1, optsSig t.2.2)) (updateIOSVersions fs₁ files cpv mv o₁)
      = Except.map (fun t => (t.2.1, optsSig t.2.2))
          (updateIOSVersions fs₂ files cpv mv o₂) := by
  intro files
  induction files with
  | nil =>
    intro fs₁ fs₂ o₁ o₂ _ hsig _ _
    simp [updateIOSVersions, Except.map, hsig]
  | cons f rest ih =>
    intro fs₁ fs₂ o₁ o₂ hnd hsig hfiles hpkg
    have hstep := @processIOSFile_sim _ _ f cpv mv _ _ hsig
      (hfiles f (List.mem_cons_self f rest)) hpkg
    rw [updateIOSVersions, updateIOSVersions]
    cases hp₁ : processIOSFile fs₁ f cpv mv o₁ with
    | error e =>
      cases hp₂ : processIOSFile fs₂ f cpv mv o₂ with
      | error e₂ =>
        rw [hp₁, hp₂] at hstep
        simp only [Except.map, Except.error.injEq] at hstep
        dsimp only
        rw [hstep]
      | ok t₂ =>
        rw [hp₁, hp₂] at hstep
        simp [Except.map] at hstep
    | ok t₁ =>
      cases hp₂ : processIOSFile fs₂ f cpv mv o₂ with
      | error e₂ =>
        rw [hp₁, hp₂] at hstep
        simp [Except.map] at hstep
      | ok t₂ =>
        rw [hp₁, hp₂] at hstep
        rcases t₁ with ⟨fs₁', r₁, o₁'⟩
        rcases t₂ with ⟨fs₂', r₂, o₂'⟩
        simp only [Except.map, Except.ok.injEq, Prod.mk.injEq] at hstep
        obtain ⟨hr, hsig'⟩ := hstep
        have hst₁ := processIOSFile_state hp₁
        have hst₂ := processIOSFile_state hp₂
        have hsigc := hsig'
        simp only [optsSig, Prod.mk.injEq] at hsigc
        have hrest := ih fs₁' fs₂' o₁' o₂' (List.Nodup.of_cons hnd) hsig'
          (by
            intro g hg
            have hgf : g ≠ f := by
              intro hgf
              subst hgf
              exact (List.nodup_cons.mp hnd).1 hg
            rw [hst₁.2.2.2.2.2.1 g hgf, hst₂.2.2.2.2.2.1 g hgf]
            exact hfiles g (List.mem_cons_of_mem f hg))
          (by
            intro hu p hpp
            have hu₁ : o₁.packageJsonUpdated = false := by
              cases hb : o₁.packageJsonUpdated with
              | false => rfl
              | true => exact absurd (hst₁.2.2.2.2.1 hb) (by rw [hu]; simp)
            have hu₂ : o₂'.packageJsonUpdated = false := by
              rw [← hsigc.2.2.2.1]
              exact hu
            rw [hst₁.2.2.2.2.2.2.2.1 hu, hst₂.2.2.2.2.2.2.2.1 hu₂]
            exact hpkg hu₁ p (by rw [← hst₁.2.2.2.1]; exact hpp))
        dsimp only
        cases hrec₁ : updateIOSVersions fs₁' rest cpv mv o₁' with
        | error e =>
          cases hrec₂ : updateIOSVersions fs₂' rest cpv mv o₂' with
          | error e₂ =>
            rw [hrec₁, hrec₂] at hrest
            simp only [Except.map, Except.error.injEq] at hrest
            rw [hrest]
          | ok u₂ =>
            rw [hrec₁, hrec₂] at hrest
            simp [Except.map] at hrest
        | ok u₁ =>
          cases hrec₂ : updateIOSVersions fs₂' rest cpv mv o₂' with
          | error e₂ =>
            rw [hrec₁, hrec₂] at hrest
            simp [Except.map] at hrest
          | ok u₂ =>
            rw [hrec₁, hrec₂] at hrest
            rcases u₁ with ⟨fsu₁, rs₁, ou₁⟩
            rcases u₂ with ⟨fsu₂, rs₂, ou₂⟩
            simp only [Except.map, Except.ok.injEq, Prod.mk.injEq] at hrest ⊢
            exact ⟨by rw [hr, hrest.1], hrest.2⟩

theorem updateAndroidVersions_dry {vc vn : JSVal} :
    ∀ (files : List String) (fs : FS) (o : Options)
      (t : FS × List AndroidResult × Options),
    o.dryRun = true → updateAndroidVersions fs files vc vn o = .ok t → t.1 = fs := by
  intro files
  induction files with
  | nil =>
    intro fs o t _ h
    rw [updateAndroidVersions] at h
    cases h
    rfl
  | cons f rest ih =>
    intro fs o t hd h
    rw [updateAndroidVersions] at h
    cases hp : processAndroidFile fs f vc vn o with
    | error e =>
      rw [hp] at h
      exact absurd h (by simp)
    | ok s =>
      rcases s with ⟨fs₁, r, o₁⟩
      rw [hp] at h
      dsimp only at h
      cases hrest : updateAndroidVersions fs₁ rest vc vn o₁ with
      | error e =>
        rw [hrest] at h
        exact absurd h (by simp)
      | ok t₂ =>
        rw [hrest] at h
        rcases t₂ with ⟨fs₂, rs, o₂⟩
        dsimp only at h
        have hst := processAndroidFile_state hp
        have hfs₁ : fs₁ = fs := hst.2.2.2.2.2.2.2.2 hd
        have hd₁ : o₁.dryRun = true := hst.1.trans hd
        have := ih fs₁ o₁ (fs₂, rs, o₂) hd₁ hrest
        cases h
        rw [this, hfs₁]

theorem updateIOSVersions_dry {cpv mv : JSVal} :
    ∀ (files : List String) (fs : FS) (o : Options)
      (t : FS × List IOSResult × Options),
    o.dryRun = true → updateIOSVersions fs files cpv mv o = .ok t → t.1 = fs := by
  intro files
  induction files with
  | nil =>
    intro fs o t _ h
    rw [updateIOSVersions] at h
    cases h
    rfl
  | cons f rest ih =>
    intro fs o t hd h
    rw [updateIOSVersions] at h
    cases hp : processIOSFile fs f cpv mv o with
    | error e =>
      rw [hp] at h
      exact absurd h (by simp)
    | ok s =>
      rcases s with ⟨fs₁, r, o₁⟩
      rw [hp] at h
      dsimp only at h
      cases hrest : updateIOSVersions fs₁ rest cpv mv o₁ with
      | error e =>
        rw [hrest] at h
        exact absurd h (by simp)
      | ok t₂ =>
        rw [hrest] at h
        rcases t₂ with ⟨fs₂, rs, o₂⟩
        dsimp only at h
        have hst := processIOSFile_state hp
        have hfs₁ : fs₁ = fs := hst.2.2.2.2.2.2.2.2 hd
        have hd₁ : o₁.dryRun = true := hst.1.trans hd
        have := ih fs₁ o₁ (fs₂, rs, o₂) hd₁ hrest
        cases h
        rw [this, hfs₁]

theorem updatePackageJsonVersion_dry_same (pkgs : List (String × PkgDoc))
    (p : String) (nv : Str) (o : Options) :
    (updatePackageJsonVersion pkgs p nv { o with dryRun := true }).2.1
        = (updatePackageJsonVersion pkgs p nv { o with dryRun := false }).2.1 ∧
      (updatePackageJsonVersion pkgs p nv { o with dryRun := true }).2.2.changes
        = (updatePackageJsonVersion pkgs p nv { o with dryRun := false }).2.2.changes := by
  unfold updatePackageJsonVersion
  cases List.lookup p pkgs with
  | none => exact ⟨rfl, rfl⟩
  | some doc =>
    dsimp only
    cases List.lookup "version" doc.fields with
    | none => exact ⟨rfl, rfl⟩
    | some cur =>
      dsimp only
      by_cases hne : cur = []
      · simp only [if_pos hne]
        exact ⟨trivial, trivial⟩
      · simp only [if_neg hne]
        exact ⟨trivial, trivial⟩

/-- C6: when the dry-run flag is set, none of the three mutators performs a file
write — `updatePackageJsonVersion` leaves the package-file store untouched, and a
successful `updateAndroidVersions` / `updateIOSVersions` run (over distinct file
paths) returns the filesystem exactly as it was — while the computed values are
still returned and the change log is extended exactly as in a non-dry run: the
returned results and the options signature (everything but the dry-run flag) of a
dry run coincide with those of the same run with the flag cleared. -/
theorem C6_dry_run_no_writes :
    (∀ (pkgs : List (String × PkgDoc)) (p : String) (nv : Str) (o : Options),
      (updatePackageJsonVersion pkgs p nv { o with dryRun := true }).1 = pkgs ∧
      (updatePackageJsonVersion pkgs p nv { o with dryRun := true }).2.1
        = (updatePackageJsonVersion pkgs p nv { o with dryRun := false }).2.1 ∧
      (updatePackageJsonVersion pkgs p nv { o with dryRun := true }).2.2.changes
        = (updatePackageJsonVersion pkgs p nv { o with dryRun := false }).2.2.changes) ∧
    (∀ (fs : FS) (files : List String) (vc vn : JSVal) (o : Options), files.Nodup →
      (∀ t, updateAndroidVersions fs files vc vn { o with dryRun := true } = .ok t →
        t.1 = fs) ∧
      Except.map (fun t => (t.2.1, optsSig t.2.2))
          (updateAndroidVersions fs files vc vn { o with dryRun := true })
        = Except.map (fun t => (t.2.1, optsSig t.2.2))
          (updateAndroidVersions fs files vc vn { o with dryRun := false })) ∧
    (∀ (fs : FS) (files : List String) (cpv mv : JSVal) (o : Options), files.Nodup →
      (∀ t, updateIOSVersions fs files cpv mv { o with dryRun := true } = .ok t →
        t.1 = fs) ∧
      Except.map (fun t => (t.2.1, optsSig t.2.2))
          (updateIOSVersions fs files cpv mv { o with dryRun := true })
        = Except.map (fun t => (t.2.1, optsSig t.2.2))
          (updateIOSVersions fs files cpv mv { o with dryRun := false })) := by
  refine ⟨?_, ?_, ?_⟩
  · intro pkgs p nv o
    exact ⟨updatePackageJsonVersion_dry_fst pkgs p nv _ rfl,
      updatePackageJsonVersion_dry_same pkgs p nv o⟩
  · intro fs files vc vn o hnd
    refine ⟨fun t h => updateAndroidVersions_dry files fs _ t rfl h, ?_⟩
    exact updateAndroidVersions_sim files fs fs _ _ hnd rfl (fun _ _ => rfl)
      (fun _ p _ => rfl)
  · intro fs files cpv mv o hnd
    refine ⟨fun t h => updateIOSVersions_dry files fs _ t rfl h, ?_⟩
    exact updateIOSVersions_sim files fs fs _ _ hnd rfl (fun _ _ => rfl)
      (fun _ p _ => rfl)

theorem C6_dry_run_no_writes_witness :
    ((["a"] : List String).Nodup ∧
      ∀ t, updateAndroidVersions
          ⟨[("a", [GLine.vc ['1'], GLine.vn ['1']])], [], []⟩ ["a"]
          (JSVal.bool true) (JSVal.bool false)
          ⟨true, "root", none, none, false, []⟩ = .ok t →
        t.1 = ⟨[("a", [GLine.vc ['1'], GLine.vn ['1']])], [], []⟩) ∧
    ((["i"] : List String).Nodup ∧
      ∀ t, updateIOSVersions
          ⟨[], [("i", [PLine.cpv ['1'], PLine.mv ['1']])], []⟩ ["i"]
          (JSVal.bool true) (JSVal.bool false)
          ⟨true, "root", none, none, false, []⟩ = .ok t →
        t.1 = ⟨[], [("i", [PLine.cpv ['1'], PLine.mv ['1']])], []⟩) :=
  ⟨⟨by decide, (C6_dry_run_no_writes.2.1
      ⟨[("a", [GLine.vc ['1'], GLine.vn ['1']])], [], []⟩ ["a"]
      (JSVal.bool true) (JSVal.bool false)
      ⟨false, "root", none, none, false, []⟩ (by decide)).1⟩,
    ⟨by decide, (C6_dry_run_no_writes.2.2
      ⟨[], [("i", [PLine.cpv ['1'], PLine.mv ['1']])], []⟩ ["i"]
      (JSVal.bool true) (JSVal.bool false)
      ⟨false, "root", none, none, false, []⟩ (by decide)).1⟩⟩

end Vbump
